import Mathlib

/-!
A shallow embedding of the ParamsSanitizer engine (src/params-sanitizer.ts):
the schema-driven validator (ParamsSanitizer.check) and coercer
(ParamsSanitizer.values), together with executable models of the
JavaScript builtins the code relies on (JSON.parse, String.prototype.split,
Number conversion via unary plus, Date parsing, Array.prototype.includes,
property access and assignment).  JavaScript exceptions (JSON.parse
syntax errors, calling .split on a non-string) are modelled with the
Except monad.  The theorems at the end settle the specification claims.
-/

namespace PS

/-- The three request locations a field definition can refer to
(the `in` attribute of a definition). -/
inductive Loc : Type where
  | query | path | body
deriving DecidableEq, Repr

/-- The declared type of a field definition. -/
inductive PType : Type where
  | string | number | boolean | date | object
deriving DecidableEq, Repr

mutual

/-- A JavaScript runtime value, as far as the sanitizer can observe one:
null, undefined, NaN, booleans, (non-NaN) numbers, strings, arrays and
plain objects.  Arrays and objects are given by their own mutually
inductive list types so that all recursions stay structural. -/
inductive JsValue : Type where
  | null
  | undefined
  | nan
  | bool (b : Bool)
  | num (q : ℚ)
  | str (s : String)
  | arr (a : JsArr)
  | obj (o : JsObj)

/-- The element list of a JavaScript array value. -/
inductive JsArr : Type where
  | nil
  | cons (v : JsValue) (rest : JsArr)

/-- The ordered field list of a JavaScript object value. -/
inductive JsObj : Type where
  | nil
  | cons (k : String) (v : JsValue) (rest : JsObj)

end

/-- Length of a JavaScript array value. -/
def JsArr.length : JsArr → Nat
  | .nil => 0
  | .cons _ rest => 1 + rest.length

/-- The element of an array at an index, counting from the front. -/
def JsArr.get? : JsArr → Nat → Option JsValue
  | .nil, _ => Option.none
  | .cons v _, 0 => Option.some v
  | .cons _ rest, n + 1 => rest.get? n

/-- Replace the element at an index, when the index is in range;
out-of-range writes leave the array unchanged (model simplification of
JavaScript index assignment, which the engine only performs on parsed
payloads). -/
def JsArr.set : JsArr → Nat → JsValue → JsArr
  | .nil, _, _ => .nil
  | .cons _ rest, 0, w => .cons w rest
  | .cons v rest, n + 1, w => .cons v (rest.set n w)

/-- First value stored under a key of a JavaScript object
(JavaScript object keys are unique, so first is the only one). -/
def JsObj.find? : JsObj → String → Option JsValue
  | .nil, _ => Option.none
  | .cons k v rest, key => if k = key then Option.some v else rest.find? key

/-- JavaScript property assignment on an object: overwrite the value of
an existing key in place (keeping its position), or append a new key at
the end. -/
def JsObj.set : JsObj → String → JsValue → JsObj
  | .nil, key, w => .cons key w .nil
  | .cons k v rest, key, w =>
      if k = key then .cons k w rest else .cons k v (rest.set key w)

/-- The field list of an object as a list of pairs (used to build the
synthetic request of the recursive object check). -/
def JsObj.toList : JsObj → List (String × JsValue)
  | .nil => []
  | .cons k v rest => (k, v) :: rest.toList

/-- Elements of an array value as a list. -/
def JsArr.toList : JsArr → List JsValue
  | .nil => []
  | .cons v rest => v :: rest.toList

/-- Build an array value from a list. -/
def JsArr.ofList : List JsValue → JsArr
  | [] => .nil
  | v :: rest => .cons v (JsArr.ofList rest)

/-- Loose-equality test with null used by the code (`value == null`):
true exactly on null and undefined. -/
def isNullish : JsValue → Bool
  | .null => true
  | .undefined => true
  | _ => false

/-- The opening-brace character, written via its code point. -/
def lbrace : Char := Char.ofNat 123

/-- The closing-brace character, written via its code point. -/
def rbrace : Char := Char.ofNat 125

/-! ### Models of string-level JavaScript builtins -/

/-- Whitespace recognised by JavaScript string trimming and JSON. -/
def isWsChar (c : Char) : Bool :=
  c = ' ' || c = '\t' || c = '\n' || c = '\r'

/-- Both-ends whitespace trim on a character list. -/
def trimChars (cs : List Char) : List Char :=
  ((cs.dropWhile isWsChar).reverse.dropWhile isWsChar).reverse

/-- Strip a pattern from the front of a character list, when it is there. -/
def stripPre : List Char → List Char → Option (List Char)
  | [], cs => Option.some cs
  | _ :: _, [] => Option.none
  | p :: ps, c :: cs => if p = c then stripPre ps cs else Option.none

/-- Fuel-driven worker for String.prototype.split with a non-empty
separator: cut the character list at every separator occurrence. -/
def splitChars : Nat → List Char → List Char → List Char → List (List Char)
  | 0, _, _, acc => [acc.reverse]
  | _ + 1, [], _, acc => [acc.reverse]
  | fuel + 1, c :: cs, sep, acc =>
      match stripPre sep (c :: cs) with
      | Option.some rest => acc.reverse :: splitChars fuel rest sep []
      | Option.none => splitChars fuel cs sep (c :: acc)

/-- Model of String.prototype.split.  An empty separator splits into
single characters; a non-empty separator cuts at every occurrence,
keeping empty tokens exactly as JavaScript does. -/
def jsSplit (s sep : String) : List String :=
  if sep.data = [] then s.data.map (fun c => String.mk [c])
  else if s.data = [] then [""]
  else (splitChars (s.data.length + 1) s.data sep.data []).map String.mk

/-- Digit value of a decimal digit character. -/
def digVal (c : Char) : Nat := c.toNat - 48

/-- Read leading decimal digits, returning their value, their count and
the rest of the input. -/
def readDigits : List Char → Nat → Nat → (Nat × Nat × List Char)
  | c :: cs, acc, n =>
      if c.isDigit then readDigits cs (acc * 10 + digVal c) (n + 1)
      else (acc, n, c :: cs)
  | [], acc, n => (acc, n, [])

/-- Hexadecimal digit test. -/
def isHexDigit (c : Char) : Bool :=
  c.isDigit || (('a' ≤ c) && (c ≤ 'f')) || (('A' ≤ c) && (c ≤ 'F'))

/-- Hexadecimal digit value. -/
def hexVal (c : Char) : Nat :=
  if c.isDigit then digVal c
  else if ('a' ≤ c) && (c ≤ 'f') then c.toNat - 87
  else c.toNat - 55

/-- Read leading hexadecimal digits. -/
def readHexDigits : List Char → Nat → Nat → (Nat × Nat × List Char)
  | c :: cs, acc, n =>
      if isHexDigit c then readHexDigits cs (acc * 16 + hexVal c) (n + 1)
      else (acc, n, c :: cs)
  | [], acc, n => (acc, n, [])

/-- Ten to an integer power, as a rational. -/
def pow10 (e : Int) : ℚ :=
  if 0 ≤ e then ((10 : ℚ) ^ e.toNat) else 1 / ((10 : ℚ) ^ (-e).toNat)

/-- Parse an optional exponent suffix and close the literal: the input
must either be empty or a full `e`/`E` exponent part. -/
def parseExpTail (base : ℚ) : List Char → Option ℚ
  | [] => Option.some base
  | e :: cs =>
      if e = 'e' || e = 'E' then
        let (sgn, cs') : (Int × List Char) :=
          match cs with
          | '+' :: t => ((1 : Int), t)
          | '-' :: t => ((-1 : Int), t)
          | t => ((1 : Int), t)
        let (ev, evn, rest) := readDigits cs' 0 0
        if evn = 0 then Option.none
        else match rest with
          | [] => Option.some (base * pow10 (sgn * (ev : Int)))
          | _ => Option.none
      else Option.none

/-- Parse the body of an unsigned JavaScript decimal number literal
(digits, optional fraction, optional exponent); `Option.none` is NaN. -/
def parseDecBody (cs : List Char) : Option ℚ :=
  let (ip, ipn, rest) := readDigits cs 0 0
  match rest with
  | '.' :: cs' =>
      let (fp, fpn, rest') := readDigits cs' 0 0
      if ipn + fpn = 0 then Option.none
      else parseExpTail ((ip : ℚ) + (fp : ℚ) * pow10 (-(fpn : Int))) rest'
  | _ =>
      if ipn = 0 then Option.none
      else parseExpTail (ip : ℚ) rest

/-- Model of JavaScript string-to-number conversion (`+s` on a string):
trim whitespace, empty means zero, then a signed decimal literal or a
hexadecimal `0x` literal; anything else is NaN (`Option.none`).
(The rarely used `Infinity`, octal and binary forms are not modelled.) -/
def strToNumber (s : String) : Option ℚ :=
  let cs := trimChars s.data
  match cs with
  | [] => Option.some 0
  | _ =>
      let (sgn, cs') : (ℚ × List Char) :=
        match cs with
        | '+' :: t => ((1 : ℚ), t)
        | '-' :: t => ((-1 : ℚ), t)
        | t => ((1 : ℚ), t)
      match cs' with
      | '0' :: x :: t =>
          if x = 'x' || x = 'X' then
            let (hv, hn, rest) := readHexDigits t 0 0
            if hn = 0 then Option.none
            else match rest with
              | [] => Option.some (sgn * (hv : ℚ))
              | _ => Option.none
          else (parseDecBody cs').map (fun q => sgn * q)
      | _ => (parseDecBody cs').map (fun q => sgn * q)

/-- Decimal string of a rational, exact when the value is an integer
(the only case the engine's own tests exercise); non-integers fall back
to a fraction notation, a deliberate simplification of JavaScript float
formatting. -/
def ratToString (q : ℚ) : String :=
  if q.den = 1 then toString q.num
  else toString q.num ++ "/" ++ toString q.den

mutual

/-- Model of JavaScript ToString on a runtime value (what `JSON.parse`
applies to a non-string argument): arrays join their elements with
commas, objects print as `[object Object]`. -/
def jsToString : JsValue → String
  | .null => "null"
  | .undefined => "undefined"
  | .nan => "NaN"
  | .bool b => if b then "true" else "false"
  | .num q => ratToString q
  | .str s => s
  | .arr a => jsArrToString a
  | .obj _ => "[object Object]"

/-- ToString of an array: elements joined by commas, with null and
undefined elements printing as empty. -/
def jsArrToString : JsArr → String
  | .nil => ""
  | .cons v rest =>
      (match v with
       | .null => ""
       | .undefined => ""
       | w => jsToString w) ++
      (match rest with
       | .nil => ""
       | r => "," ++ jsArrToString r)

end

/-- Model of JavaScript ToNumber (`+v`); `Option.none` is NaN. -/
def jsToNumber : JsValue → Option ℚ
  | .null => Option.some 0
  | .undefined => Option.none
  | .nan => Option.none
  | .bool b => Option.some (if b then 1 else 0)
  | .num q => Option.some q
  | .str s => strToNumber s
  | .arr a => strToNumber (jsArrToString a)
  | .obj _ => Option.none

/-- Wrap an optional rational back into a value, NaN when absent. -/
def numToValue : Option ℚ → JsValue
  | Option.some q => .num q
  | Option.none => .nan

/-- Minimal model of the date strings `new Date(string)` accepts: an ISO
`YYYY-MM-DD` day, optionally followed by `THH:MM:SS`.  The result is a
millisecond-scale timestamp on an idealised calendar (every month 31
days); everything else is an invalid date (`Option.none`).  No claim
depends on the exact accepted language or encoding. -/
def dateParse (s : String) : Option Int :=
  match s.data with
  | y1 :: y2 :: y3 :: y4 :: '-' :: m1 :: m2 :: '-' :: d1 :: d2 :: rest =>
      if (y1.isDigit && y2.isDigit && y3.isDigit && y4.isDigit &&
          m1.isDigit && m2.isDigit && d1.isDigit && d2.isDigit) then
        let y := ((digVal y1 * 10 + digVal y2) * 10 + digVal y3) * 10 + digVal y4
        let m := digVal m1 * 10 + digVal m2
        let d := digVal d1 * 10 + digVal d2
        if (1 ≤ m && m ≤ 12 && 1 ≤ d && d ≤ 31) then
          let day : Int := ((y * 12 + m) * 31 + d : Nat)
          match rest with
          | [] => Option.some (day * 86400000)
          | 'T' :: h1 :: h2 :: ':' :: n1 :: n2 :: ':' :: s1 :: s2 :: [] =>
              if (h1.isDigit && h2.isDigit && n1.isDigit && n2.isDigit &&
                  s1.isDigit && s2.isDigit) then
                let hh := digVal h1 * 10 + digVal h2
                let nn := digVal n1 * 10 + digVal n2
                let ss := digVal s1 * 10 + digVal s2
                if (hh ≤ 23 && nn ≤ 59 && ss ≤ 59) then
                  Option.some (day * 86400000 + ((hh * 60 + nn) * 60 + ss : Nat) * 1000)
                else Option.none
              else Option.none
          | _ => Option.none
        else Option.none
      else Option.none
  | _ => Option.none

/-- Model of `new Date(v).getTime()`: `Option.none` is an invalid date
(NaN time).  Numbers are used as timestamps, strings are parsed,
booleans and null go through ToNumber, objects and arrays through
ToString. -/
def dateFromValue : JsValue → Option Int
  | .num q => Option.some q.floor
  | .nan => Option.none
  | .str s => dateParse s
  | .bool b => Option.some (if b then 1 else 0)
  | .null => Option.some 0
  | .undefined => Option.none
  | .arr a => dateParse (jsArrToString a)
  | .obj _ => Option.none

/-- The canonical-boolean membership test of check:
`['true','false','0','1',0,1,true,false].includes(value)`.
Array.prototype.includes compares without coercion, so the strings match
only string values and the numbers only number values. -/
def isCanonicalBool : JsValue → Bool
  | .str s => s = "true" || s = "false" || s = "0" || s = "1"
  | .num q => q = 0 || q = 1
  | .bool _ => true
  | _ => false

/-- The true-representation test of parseValue:
`[true,'true',1,'1'].includes(value)`. -/
def isTrueRepr : JsValue → Bool
  | .bool b => b
  | .str s => s = "true" || s = "1"
  | .num q => q = 1
  | _ => false

/-- The token-level boolean rule of the array case of parseValue:
`['true',1,'1'].includes(v)` where `v` is a string token, so only the
two string representations can match. -/
def tokenIsTrue (t : String) : Bool :=
  t = "true" || t = "1"

/-- Extract the underlying string of a value, failing like the JavaScript
TypeError raised when `.split` is called on a non-string. -/
def asString : JsValue → Except Unit String
  | .str s => Except.ok s
  | _ => Except.error ()

/-- JavaScript property read used by the object branch of parseValue;
reading a property of null or undefined throws. -/
def jsGetProp : JsValue → String → Except Unit JsValue
  | .null, _ => Except.error ()
  | .undefined, _ => Except.error ()
  | .obj o, k =>
      Except.ok (match o.find? k with
                 | Option.some v => v
                 | Option.none => .undefined)
  | .arr a, k =>
      Except.ok (match strToNumber k with
                 | Option.some q =>
                     if q.den = 1 && 0 ≤ q.num then
                       match a.get? q.num.toNat with
                       | Option.some v => v
                       | Option.none => .undefined
                     else .undefined
                 | Option.none => .undefined)
  | _, _ => Except.ok .undefined

/-- JavaScript property assignment used by the object branch of
parseValue: objects are updated, arrays are updated at in-range numeric
indices, and assignment to a primitive is a silent no-op (non-strict
mode). -/
def jsSetProp : JsValue → String → JsValue → JsValue
  | .obj o, k, w => .obj (o.set k w)
  | .arr a, k, w =>
      (match strToNumber k with
       | Option.some q =>
           if q.den = 1 && 0 ≤ q.num && q.num.toNat < a.length then
             .arr (a.set q.num.toNat w)
           else .arr a
       | Option.none => .arr a)
  | v, _, _ => v

/-! ### A model of JSON.parse -/

/-- Skip JSON whitespace. -/
def skipWs (cs : List Char) : List Char := cs.dropWhile isWsChar

/-- Decode one JSON string-literal escape after the backslash. -/
def unescape : List Char → Option (Char × List Char)
  | '"' :: cs => Option.some ('"', cs)
  | '\\' :: cs => Option.some ('\\', cs)
  | '/' :: cs => Option.some ('/', cs)
  | 'b' :: cs => Option.some (Char.ofNat 8, cs)
  | 'f' :: cs => Option.some (Char.ofNat 12, cs)
  | 'n' :: cs => Option.some ('\n', cs)
  | 'r' :: cs => Option.some ('\r', cs)
  | 't' :: cs => Option.some ('\t', cs)
  | 'u' :: a :: b :: c :: d :: cs =>
      if (isHexDigit a && isHexDigit b && isHexDigit c && isHexDigit d) then
        Option.some (Char.ofNat (((hexVal a * 16 + hexVal b) * 16 + hexVal c) * 16 + hexVal d), cs)
      else Option.none
  | _ => Option.none

/-- Read the remainder of a JSON string literal (the opening quote is
already consumed), returning its characters and the rest of the input. -/
def readJsonString : Nat → List Char → Option (List Char × List Char)
  | 0, _ => Option.none
  | _ + 1, [] => Option.none
  | fuel + 1, c :: cs =>
      if c = '"' then Option.some ([], cs)
      else if c = '\\' then
        match unescape cs with
        | Option.some (d, cs') =>
            (readJsonString fuel cs').map (fun p => (d :: p.1, p.2))
        | Option.none => Option.none
      else (readJsonString fuel cs).map (fun p => (c :: p.1, p.2))

/-- Read an unsigned JSON number after an optional leading minus sign:
integer part, optional fraction, optional exponent.  JSON is a strict
subset of the JavaScript literal grammar, so reusing the decimal-body
reader only widens the accepted language on inputs no claim exercises. -/
def readJsonNumber (cs : List Char) : Option (ℚ × List Char) :=
  let (sgn, cs') : (ℚ × List Char) :=
    match cs with
    | '-' :: t => ((-1 : ℚ), t)
    | t => ((1 : ℚ), t)
  let (ip, ipn, rest) := readDigits cs' 0 0
  if ipn = 0 then Option.none
  else
    let (base, rest') : (ℚ × List Char) :=
      match rest with
      | '.' :: t =>
          let (fp, fpn, r) := readDigits t 0 0
          ((ip : ℚ) + (fp : ℚ) * pow10 (-(fpn : Int)), r)
      | _ => ((ip : ℚ), rest)
    match rest' with
    | e :: t =>
        if e = 'e' || e = 'E' then
          let (esgn, t') : (Int × List Char) :=
            match t with
            | '+' :: u => ((1 : Int), u)
            | '-' :: u => ((-1 : Int), u)
            | u => ((1 : Int), u)
          let (ev, evn, r) := readDigits t' 0 0
          if evn = 0 then Option.none
          else Option.some (sgn * base * pow10 (esgn * (ev : Int)), r)
        else Option.some (sgn * base, rest')
    | [] => Option.some (sgn * base, [])

/-- Assemble an object value from members in source order by repeated
JavaScript property assignment, so a duplicated key keeps its first
position but its last value, as JSON.parse does. -/
def JsObj.ofMembers (l : List (String × JsValue)) : JsObj :=
  l.foldl (fun o p => o.set p.1 p.2) .nil

mutual

/-- Fuel-driven recursive-descent JSON value parser; leading whitespace
is already skipped by the caller. -/
def parseJsonVal : Nat → List Char → Option (JsValue × List Char)
  | 0, _ => Option.none
  | fuel + 1, cs =>
      match cs with
      | [] => Option.none
      | c :: rest =>
          if c = '"' then
            (readJsonString (rest.length + 1) rest).map
              (fun p => (JsValue.str (String.mk p.1), p.2))
          else if c = '[' then
            match skipWs rest with
            | ']' :: rest' => Option.some (JsValue.arr .nil, rest')
            | cs' => (parseJsonArr fuel cs').map (fun p => (JsValue.arr p.1, p.2))
          else if c = lbrace then
            match skipWs rest with
            | d :: rest' =>
                if d = rbrace then Option.some (JsValue.obj .nil, rest')
                else (parseJsonObj fuel (d :: rest')).map
                  (fun p => (JsValue.obj (JsObj.ofMembers p.1), p.2))
            | [] => Option.none
          else match stripPre ['t', 'r', 'u', 'e'] cs with
          | Option.some rest' => Option.some (JsValue.bool true, rest')
          | Option.none =>
            match stripPre ['f', 'a', 'l', 's', 'e'] cs with
            | Option.some rest' => Option.some (JsValue.bool false, rest')
            | Option.none =>
              match stripPre ['n', 'u', 'l', 'l'] cs with
              | Option.some rest' => Option.some (JsValue.null, rest')
              | Option.none =>
                (readJsonNumber cs).map (fun p => (JsValue.num p.1, p.2))

/-- Parse the non-empty element list of a JSON array, up to and
including the closing bracket. -/
def parseJsonArr : Nat → List Char → Option (JsArr × List Char)
  | 0, _ => Option.none
  | fuel + 1, cs =>
      match parseJsonVal fuel (skipWs cs) with
      | Option.none => Option.none
      | Option.some (v, rest) =>
          match skipWs rest with
          | ',' :: rest' =>
              (parseJsonArr fuel rest').map (fun p => (JsArr.cons v p.1, p.2))
          | ']' :: rest' => Option.some (JsArr.cons v .nil, rest')
          | _ => Option.none

/-- Parse the non-empty member list of a JSON object, up to and
including the closing brace, returning the members in source order. -/
def parseJsonObj : Nat → List Char → Option (List (String × JsValue) × List Char)
  | 0, _ => Option.none
  | fuel + 1, cs =>
      match skipWs cs with
      | c :: rest =>
          if c = '"' then
            match readJsonString (rest.length + 1) rest with
            | Option.none => Option.none
            | Option.some (kcs, rest') =>
                match skipWs rest' with
                | ':' :: rest'' =>
                    match parseJsonVal fuel (skipWs rest'') with
                    | Option.none => Option.none
                    | Option.some (v, rest3) =>
                        match skipWs rest3 with
                        | ',' :: rest4 =>
                            (parseJsonObj fuel rest4).map
                              (fun p => ((String.mk kcs, v) :: p.1, p.2))
                        | d :: rest4 =>
                            if d = rbrace then
                              Option.some ([(String.mk kcs, v)], rest4)
                            else Option.none
                        | [] => Option.none
                | _ => Option.none
          else Option.none
      | [] => Option.none

end

/-- Model of `JSON.parse` on a string: parse exactly one JSON value with
only whitespace around it; a syntax error is an exception. -/
def jsonParse (s : String) : Except Unit JsValue :=
  match parseJsonVal (s.data.length + 1) (skipWs s.data) with
  | Option.some (v, rest) =>
      if skipWs rest = [] then Except.ok v else Except.error ()
  | Option.none => Except.error ()

/-- `JSON.parse(v)` on an arbitrary runtime value: JavaScript first
applies ToString, so a plain object argument becomes the unparsable text
`[object Object]` and throws. -/
def jsonParseValue (v : JsValue) : Except Unit JsValue :=
  jsonParse (jsToString v)

/-! ### The schema data model -/

mutual

/-- A fully normalized field definition (the shape `check` and `values`
work with after the constructor has merged `defaultParamsValues` in):
`name`, `type`, `isArray`, `elementsDivider`, `default`, `required`,
`in` (called `location` here) and the optional nested `properties`. -/
inductive PDef : Type where
  | mk (name : String) (type : PType) (isArray : Bool)
       (elementsDivider : String) (dflt : JsValue) (required : Bool)
       (location : Loc) (properties : PProps)

/-- The `properties` attribute: JavaScript distinguishes an absent
properties field (falsy) from a supplied, possibly empty, array
(truthy), and `check` tests exactly that truthiness. -/
inductive PProps : Type where
  | absent
  | given (ds : PDefs)

/-- A list of field definitions (a mutual inductive so that every
recursion over the schema tree stays structural). -/
inductive PDefs : Type where
  | nil
  | cons (d : PDef) (rest : PDefs)

end

/-- The name of a definition. -/
def PDef.name : PDef → String
  | .mk n _ _ _ _ _ _ _ => n

/-- The declared type of a definition. -/
def PDef.type : PDef → PType
  | .mk _ t _ _ _ _ _ _ => t

/-- The isArray flag of a definition. -/
def PDef.isArray : PDef → Bool
  | .mk _ _ a _ _ _ _ _ => a

/-- The elementsDivider of a definition. -/
def PDef.elementsDivider : PDef → String
  | .mk _ _ _ d _ _ _ _ => d

/-- The default value of a definition. -/
def PDef.dflt : PDef → JsValue
  | .mk _ _ _ _ v _ _ _ => v

/-- The required flag of a definition. -/
def PDef.required : PDef → Bool
  | .mk _ _ _ _ _ r _ _ => r

/-- The location (the `in` attribute) of a definition. -/
def PDef.location : PDef → Loc
  | .mk _ _ _ _ _ _ l _ => l

/-- The properties attribute of a definition. -/
def PDef.properties : PDef → PProps
  | .mk _ _ _ _ _ _ _ p => p

/-- The definitions of a PDefs list, as a List. -/
def PDefs.toList : PDefs → List PDef
  | .nil => []
  | .cons d rest => d :: rest.toList

/-- Build a PDefs list from a List (for writing schema literals). -/
def PDefs.ofList : List PDef → PDefs
  | [] => .nil
  | d :: rest => .cons d (PDefs.ofList rest)

/-! ### Request and result shapes -/

/-- The three string-keyed input mappings of a request, each a list of
key/value pairs in insertion order (JavaScript object keys are unique
and ordered).  An absent mapping is the empty one. -/
structure Req : Type where
  query : List (String × JsValue)
  path : List (String × JsValue)
  body : List (String × JsValue)

/-- The mapping of a request at a location. -/
def Req.get (req : Req) : Loc → List (String × JsValue)
  | .query => req.query
  | .path => req.path
  | .body => req.body

/-- A request with a single location populated (the synthetic `fakeReq`
of the recursive object check). -/
def singleReq : Loc → List (String × JsValue) → Req
  | .query, m => ⟨m, [], []⟩
  | .path, m => ⟨[], m, []⟩
  | .body, m => ⟨[], [], m⟩

/-- View a parsed payload as the key/value mapping `Object.keys` and
property reads see on it: objects give their fields, arrays their
indices, strings their character positions, primitives nothing. -/
def toMapping : JsValue → List (String × JsValue)
  | .obj o => o.toList
  | .arr a => (a.toList.enum.map (fun p => (toString p.1, p.2)))
  | .str s => (s.data.enum.map (fun p => (toString p.1, JsValue.str (String.mk [p.2]))))
  | _ => []

/-- One classification record of a CheckResult: a location tag (the
`where` field of the source) and the qualified names collected for it. -/
structure Entry : Type where
  wh : Loc
  params : List String
deriving DecidableEq, Repr

/-- The result of `check`: an overall status and the three
classification lists.  Each list starts with one record per location and
recursive object validation appends further records to it by merging. -/
structure CheckResult : Type where
  status : Bool
  unknown : List Entry
  missing : List Entry
  malformed : List Entry
deriving DecidableEq, Repr

/-- The result of `values`: one coerced mapping per location. -/
structure ValueResult : Type where
  query : List (String × JsValue)
  path : List (String × JsValue)
  body : List (String × JsValue)

/-! ### The validator (ParamsSanitizer.check) -/

/-- The mutable accumulators of one `check` invocation: the per-location
unknown and malformed lists that the per-key pass pushes into, plus the
records appended to the missing, unknown and malformed arrays by merging
recursive results.  (The initial three missing records are computed
up-front and never pushed into, so they are kept outside the state.) -/
structure CheckSt : Type where
  uq : List String
  up : List String
  ub : List String
  mq : List String
  mp : List String
  mb : List String
  exMissing : List Entry
  exUnknown : List Entry
  exMalformed : List Entry
deriving DecidableEq, Repr

/-- The all-empty accumulator state. -/
def st0 : CheckSt := ⟨[], [], [], [], [], [], [], [], []⟩

/-- Push a qualified name into the unknown list of a location (the
`unknown.find(u => u.where === where)?.params.push(...)` of the source:
the record found is always the initial one for that location). -/
def CheckSt.pushU (st : CheckSt) : Loc → String → CheckSt
  | .query, x => { st with uq := st.uq ++ [x] }
  | .path, x => { st with up := st.up ++ [x] }
  | .body, x => { st with ub := st.ub ++ [x] }

/-- Push a qualified name into the malformed list of a location. -/
def CheckSt.pushM (st : CheckSt) : Loc → String → CheckSt
  | .query, x => { st with mq := st.mq ++ [x] }
  | .path, x => { st with mp := st.mp ++ [x] }
  | .body, x => { st with mb := st.mb ++ [x] }

/-- The unknown accumulator of a location. -/
def CheckSt.u (st : CheckSt) : Loc → List String
  | .query => st.uq
  | .path => st.up
  | .body => st.ub

/-- The malformed accumulator of a location. -/
def CheckSt.m (st : CheckSt) : Loc → List String
  | .query => st.mq
  | .path => st.mp
  | .body => st.mb

/-- The missing pass of `check`: one record per location holding, for
every definition of that location with `required = true` whose name is
not among the location's input keys, the prefixed name. -/
def mkMissing0 (defs : List PDef) (req : Req) (pre : String) : List Entry :=
  [Loc.query, Loc.path, Loc.body].map (fun loc =>
    let keys := (req.get loc).map Prod.fst
    let required := ((defs.filter (fun d => d.location = loc)).filter
      (fun d => d.required)).map PDef.name
    ⟨loc, (required.filter (fun r => !(keys.contains r))).map (fun p => pre ++ p)⟩)

/-- Assemble the final CheckResult from the initial missing records and
the accumulated state, computing the aggregate status exactly as the
source does (a list of positive lengths per classification, status true
iff all three are empty). -/
def mkResult (m0 : List Entry) (st : CheckSt) : CheckResult :=
  let missing := m0 ++ st.exMissing
  let unknown := [Entry.mk .query st.uq, Entry.mk .path st.up, Entry.mk .body st.ub] ++ st.exUnknown
  let malformed := [Entry.mk .query st.mq, Entry.mk .path st.mp, Entry.mk .body st.mb] ++ st.exMalformed
  let missingAny := (missing.map (fun m => m.params.length)).filter (fun n => 0 < n)
  let unknownAny := (unknown.map (fun m => m.params.length)).filter (fun n => 0 < n)
  let malformedAny := (malformed.map (fun m => m.params.length)).filter (fun n => 0 < n)
  ⟨!(decide (0 < missingAny.length) || decide (0 < unknownAny.length) ||
     decide (0 < malformedAny.length)),
   unknown, missing, malformed⟩

/-- The per-key pass of `check` for one input key, parameterized by the
recursive checker `rc` used for nested object properties (`rc` receives
the nested definitions, the synthetic single-location request and the
new path prefix `name ++ "."`). -/
def processKeyF (rc : List PDef → Req → String → Except Unit CheckResult)
    (strict : Bool) (defs : List PDef) (pre : String) (m0 : List Entry)
    (loc : Loc) (name : String) (value : JsValue) (st : CheckSt) :
    Except Unit CheckSt :=
  match (defs.filter (fun d => d.location = loc)).find? (fun d => d.name = name) with
  | Option.none =>
      if strict then Except.ok (st.pushU loc (pre ++ name)) else Except.ok st
  | Option.some d =>
      if (m0 ++ st.exMissing).any
          (fun m => m.wh = loc && m.params.contains (pre ++ name)) then
        Except.ok st
      else
        match d.type with
        | .number =>
            if d.isArray then do
              let s ← asString value
              if (jsSplit s d.elementsDivider).foldl
                  (fun acc v => acc && (strToNumber v).isSome) true then
                Except.ok st
              else Except.ok (st.pushM loc (pre ++ name))
            else
              if (jsToNumber value).isSome then Except.ok st
              else Except.ok (st.pushM loc (pre ++ name))
        | .date =>
            if (dateFromValue value).isSome then Except.ok st
            else Except.ok (st.pushM loc (pre ++ name))
        | .boolean =>
            if isCanonicalBool value then Except.ok st
            else Except.ok (st.pushM loc (pre ++ name))
        | .object =>
            match d.properties with
            | .absent => Except.ok st
            | .given props => do
                let parsed ← jsonParseValue value
                let fakeReq := singleReq d.location (toMapping parsed)
                let res ← rc props.toList fakeReq (name ++ ".")
                if res.status then Except.ok st
                else Except.ok { st with
                  exMissing := st.exMissing ++ res.missing,
                  exMalformed := st.exMalformed ++ res.malformed,
                  exUnknown := st.exUnknown ++ res.unknown }
        | .string => Except.ok st

/-- The per-key pass over all keys of one location, in insertion order. -/
def processLocF (rc : List PDef → Req → String → Except Unit CheckResult)
    (strict : Bool) (defs : List PDef) (pre : String) (m0 : List Entry)
    (loc : Loc) : List (String × JsValue) → CheckSt → Except Unit CheckSt
  | [], st => Except.ok st
  | (k, v) :: rest, st => do
      let st' ← processKeyF rc strict defs pre m0 loc k v st
      processLocF rc strict defs pre m0 loc rest st'

/-- Fuel-driven worker for `check`: the missing pass, then the per-key
pass over query, path and body, then result assembly.  The fuel only
bounds the nesting depth of recursive object validation; the public
wrapper supplies enough for any schema. -/
def checkAux : Nat → Bool → List PDef → Req → String → Except Unit CheckResult
  | 0, _, _, _, _ => Except.error ()
  | fuel + 1, strict, defs, req, pre => do
      let m0 := mkMissing0 defs req pre
      let rc := fun ds rq p => checkAux fuel strict ds rq p
      let st1 ← processLocF rc strict defs pre m0 .query req.query st0
      let st2 ← processLocF rc strict defs pre m0 .path req.path st1
      let st3 ← processLocF rc strict defs pre m0 .body req.body st2
      Except.ok (mkResult m0 st3)

mutual

/-- A structural size of a definition, used to bound recursion depth. -/
def sizeP : PDef → Nat
  | .mk _ _ _ _ _ _ _ p => 1 + sizePr p

/-- Structural size of a properties attribute. -/
def sizePr : PProps → Nat
  | .absent => 0
  | .given ds => sizeDs ds

/-- Structural size of a definitions list. -/
def sizeDs : PDefs → Nat
  | .nil => 0
  | .cons d rest => sizeP d + sizeDs rest + 1

end

/-- Structural size of a List of definitions. -/
def sizeL (defs : List PDef) : Nat :=
  defs.foldr (fun d acc => sizeP d + acc + 1) 0

/-- `ParamsSanitizer.check(req)`: validate the three input mappings
against the schema, classifying every field as missing, unknown or
malformed; `strict` is the construction option governing unknown keys.
The fuel `sizeL defs + 1` strictly dominates the nesting depth of the
schema, so it is never exhausted. -/
def check (strict : Bool) (defs : List PDef) (req : Req) :
    Except Unit CheckResult :=
  checkAux (sizeL defs + 1) strict defs req ""

/-! ### The coercer (ParamsSanitizer.values and parseValue) -/

/-- The nested definitions of a properties attribute, an absent
attribute giving the empty list (`def.properties || []`). -/
def PProps.toListD : PProps → List PDef
  | .absent => []
  | .given ds => ds.toList

/-- The property loop of the object case of parseValue, parameterized by
the recursive parser: for each nested definition, read the property,
parse it recursively, and assign the result back. -/
def parsePropsAuxF (rec : JsValue → PDef → Except Unit JsValue) :
    List PDef → JsValue → Except Unit JsValue
  | [], objValue => Except.ok objValue
  | dd :: rest, objValue => do
      let val ← jsGetProp objValue dd.name
      let pv ← rec val dd
      parsePropsAuxF rec rest (jsSetProp objValue dd.name pv)

/-- Fuel-driven model of the private `parseValue(value, def)`: an absent
or null raw value yields the default verbatim; otherwise the value is
converted according to the declared type.  The object case parses a
string payload (a possible exception) or takes a structured payload as
is, then overwrites each declared nested property with its own
recursively parsed value. -/
def parseValueAux : Nat → JsValue → PDef → Except Unit JsValue
  | 0, _, _ => Except.error ()
  | fuel + 1, value, d =>
      if isNullish value then Except.ok d.dflt
      else
        match d.type with
        | .number =>
            if d.isArray then do
              let s ← asString value
              Except.ok (JsValue.arr (JsArr.ofList
                ((jsSplit s d.elementsDivider).map
                  (fun v => numToValue (strToNumber v)))))
            else Except.ok (numToValue (jsToNumber value))
        | .date => Except.ok (numToValue ((dateFromValue value).map (fun t => (t : ℚ))))
        | .boolean =>
            if d.isArray then do
              let s ← asString value
              Except.ok (JsValue.arr (JsArr.ofList
                ((jsSplit s d.elementsDivider).map
                  (fun v => JsValue.bool (tokenIsTrue v)))))
            else Except.ok (JsValue.bool (isTrueRepr value))
        | .object => do
            let objValue ← (match value with
                            | .str s => jsonParse s
                            | v => Except.ok v)
            parsePropsAuxF (fun v dd => parseValueAux fuel v dd)
              (PProps.toListD d.properties) objValue
        | .string =>
            if d.isArray then do
              let s ← asString value
              Except.ok (JsValue.arr (JsArr.ofList
                ((jsSplit s d.elementsDivider).map JsValue.str)))
            else Except.ok value


/-- Raw lookup `p[def.name]` in a location's mapping: the first (only)
value under the key, undefined when absent. -/
def getRaw (req : Req) (loc : Loc) (name : String) : JsValue :=
  match (req.get loc).find? (fun p => p.1 = name) with
  | Option.some p => p.2
  | Option.none => .undefined

/-- Overwrite the value under a key of a mapping in place (append when
absent, which the engine never actually does on a request). -/
def listSet : List (String × JsValue) → String → JsValue → List (String × JsValue)
  | [], k, w => [(k, w)]
  | (a, b) :: rest, k, w =>
      if a = k then (a, w) :: rest else (a, b) :: listSet rest k w

/-- Overwrite a slot of one of the three request mappings. -/
def setReqSlot (req : Req) : Loc → String → JsValue → Req
  | .query, k, w => { req with query := listSet req.query k w }
  | .path, k, w => { req with path := listSet req.path k w }
  | .body, k, w => { req with body := listSet req.body k w }

/-- A mapping of a ValueResult. -/
def ValueResult.get (vr : ValueResult) : Loc → List (String × JsValue)
  | .query => vr.query
  | .path => vr.path
  | .body => vr.body

/-- Assignment `obj[def.in][def.name] = value` on a ValueResult. -/
def setVR (vr : ValueResult) : Loc → String → JsValue → ValueResult
  | .query, k, w => { vr with query := listSet vr.query k w }
  | .path, k, w => { vr with path := listSet vr.path k w }
  | .body, k, w => { vr with body := listSet vr.body k w }

/-- One iteration of the `values` loop for one definition, threading the
output under construction and the request.  The request component
records the observable effect JavaScript aliasing has on the caller's
mapping: when an object-typed definition receives an already-structured
(non-string, non-nullish) payload, parseValue's property writes land in
the caller's own value, so the slot afterwards holds the coerced result;
in every other case the request is untouched (string payloads are parsed
into fresh structures, primitive writes are silent no-ops). -/
def valStep (pv : JsValue → PDef → Except Unit JsValue)
    (acc : ValueResult × Req) (d : PDef) : Except Unit (ValueResult × Req) := do
  let raw := getRaw acc.2 d.location d.name
  let value ← pv raw d
  let req' :=
    if d.type = .object && !(isNullish raw) &&
        (match raw with | .str _ => false | _ => true) then
      setReqSlot acc.2 d.location d.name value
    else acc.2
  let vr' := if isNullish value then acc.1 else setVR acc.1 d.location d.name value
  Except.ok (vr', req')

/-- `ParamsSanitizer.values(req)` together with the state of the
caller's request after the call (identical to the input request except
for the in-place overwrites described at valStep). -/
def valuesEff (defs : List PDef) (req : Req) : Except Unit (ValueResult × Req) :=
  defs.foldlM (valStep (fun v d => parseValueAux (sizeL defs + 1) v d)) (⟨[], [], []⟩, req)

/-- `ParamsSanitizer.values(req)`: the coerced value tree per location. -/
def values (defs : List PDef) (req : Req) : Except Unit ValueResult :=
  (valuesEff defs req).map (fun p => p.1)

/-! ### Concrete schemas and requests used by the claim theorems -/

/-- All qualified names reported anywhere in a CheckResult. -/
def collectNames (r : CheckResult) : List String :=
  (r.missing ++ r.unknown ++ r.malformed).foldr (fun e acc => e.params ++ acc) []

/-- Fuel-driven enumerator behind specQualifiedPaths. -/
def specQualifiedPathsAux : Nat → String → List PDef → List String
  | 0, _, _ => []
  | fuel + 1, pre, defs =>
      (defs.map (fun d =>
        (pre ++ d.name) ::
          specQualifiedPathsAux fuel (pre ++ d.name ++ ".") (PProps.toListD d.properties))).flatten

/-- The qualified field names of a schema as the specification words
them: for every field at every nesting depth, the full dot-joined path
from the schema root through all enclosing object field names.  This
definition follows the specification text and is the reference point the
reported names are compared against. -/
def specQualifiedPaths (defs : List PDef) : List String :=
  specQualifiedPathsAux (sizeL defs + 1) "" defs

/-- Three empty classification records, one per location. -/
def e3 : List Entry := [⟨.query, []⟩, ⟨.path, []⟩, ⟨.body, []⟩]

/-- C1 instance: innermost definition, required and in query. -/
def c1c : PDef := PDef.mk ("c") .string false (",") .null true .query .absent

/-- C1 instance: middle object definition holding c1c. -/
def c1p : PDef := PDef.mk ("p") .object false (",") .null false .query
  (.given (.cons c1c .nil))

/-- C1 instance: a schema nesting an object inside an object. -/
def c1defs : List PDef := [PDef.mk ("gp") .object false (",") .null false .query
  (.given (.cons c1p .nil))]

/-- C1 instance: the grandparent payload carries the middle payload as an
embedded JSON string, and the innermost required field is absent. -/
def c1req : Req := ⟨[("gp", .str ("\x7b\"p\": \"\x7b\x7d\"\x7d"))], [], []⟩

/-- C2 instance: nested boolean definition inside the object. -/
def c2inner : PDef := PDef.mk ("b") .boolean false (",") .null false .body .absent

/-- C2 instance: one object definition in the body with a nested boolean. -/
def c2defs : List PDef := [PDef.mk ("a") .object false (",") .null false .body
  (.given (.cons c2inner .nil))]

/-- C2 instance: the body holds an already-structured object whose nested
field is the string "true". -/
def c2req : Req := ⟨[], [], [("a", .obj (.cons ("b") (.str "true") .nil))]⟩

/-- C2 instance: the caller's request after values has run, its nested
field overwritten in place by the coerced boolean. -/
def c2reqAfter : Req := ⟨[], [], [("a", .obj (.cons ("b") (.bool true) .nil))]⟩

/-- C4 instance: nested boolean field under the object definition. -/
def c4c : PDef := PDef.mk ("c") .boolean false (",") .null false .query .absent

/-- C4 instance: a required definition whose name contains a dot next to
an object definition whose nested validation reports the same qualified
name. -/
def c4defs : List PDef :=
  [PDef.mk ("b.c") .string false (",") .null true .query .absent,
   PDef.mk ("b") .object false (",") .null false .query (.given (.cons c4c .nil))]

/-- C4 instance: the object key is present with a malformed nested
boolean, the dotted-name required key is absent. -/
def c4req : Req := ⟨[("b", .str ("\x7b\"c\":\"maybe\"\x7d"))], [], []⟩

/-- C8 instance: a boolean query field. -/
def d8 : PDef := PDef.mk ("flag") .boolean false (",") .null false .query .absent

/-- C9 instance: an object definition in the body with a supplied (empty)
properties array. -/
def c9defs : List PDef := [PDef.mk ("a") .object false (",") .null false .body
  (.given .nil)]

/-- C9 instance: the body holds an already-structured (non-string) empty
object under the defined key. -/
def c9req : Req := ⟨[], [], [("a", .obj .nil)]⟩

/-- C10 instance: nested definition declared in the body, required. -/
def c10c : PDef := PDef.mk ("c") .string false (",") .null true .body .absent

/-- C10 instance: an object definition in the query whose nested
properties declare a body location. -/
def c10defs : List PDef := [PDef.mk ("a") .object false (",") .null false .query
  (.given (.cons c10c .nil))]

/-- C7 witness instance: a boolean query field whose default is the
literal false. -/
def d7 : PDef := PDef.mk ("flag") .boolean false (",") (.bool false) false .query .absent

/-- C5 witness instance: the worked example of the specification, a
required string p1 and an optional number p2, both in the query. -/
def c5defs : List PDef :=
  [PDef.mk ("p1") .string false (",") .null true .query .absent,
   PDef.mk ("p2") .number false (",") .null false .query .absent]

/-- Replace one location's mapping of a request (used to state that an
ignored key can be removed without changing the result). -/
def setLoc (req : Req) : Loc → List (String × JsValue) → Req
  | .query, l => { req with query := l }
  | .path, l => { req with path := l }
  | .body, l => { req with body := l }

/-- The coerced value stored for a name in a ValueResult location. -/
def lookupVR (vr : ValueResult) (loc : Loc) (name : String) : Option JsValue :=
  ((vr.get loc).find? (fun p => p.1 = name)).map (fun p => p.2)

/-- C1 instance: the innermost recursive check result, reporting the
required field c under the one-level qualified name p.c. -/
def c1res3 : CheckResult :=
  mkResult [⟨.query, ["p.c"]⟩, ⟨.path, []⟩, ⟨.body, []⟩] st0

/-- C1 instance: the middle-level accumulator after merging c1res3. -/
def c1st2 : CheckSt :=
  { st0 with exMissing := st0.exMissing ++ c1res3.missing,
             exMalformed := st0.exMalformed ++ c1res3.malformed,
             exUnknown := st0.exUnknown ++ c1res3.unknown }

/-- C1 instance: the middle-level recursive check result. -/
def c1res2 : CheckResult := mkResult e3 c1st2

/-- C1 instance: the top-level accumulator after merging c1res2. -/
def c1st1 : CheckSt :=
  { st0 with exMissing := st0.exMissing ++ c1res2.missing,
             exMalformed := st0.exMalformed ++ c1res2.malformed,
             exUnknown := st0.exUnknown ++ c1res2.unknown }

/-- C1 instance: the full result of check on the three-level schema:
the only reported name is p.c. -/
def c1result : CheckResult := mkResult e3 c1st1

/-- Accumulator extension order: every list of the second state extends
the corresponding list of the first by a suffix (pushes and merges only
append). -/
def stLe (s t : CheckSt) : Prop :=
  (∃ x, t.uq = s.uq ++ x) ∧ (∃ x, t.up = s.up ++ x) ∧ (∃ x, t.ub = s.ub ++ x) ∧
  (∃ x, t.mq = s.mq ++ x) ∧ (∃ x, t.mp = s.mp ++ x) ∧ (∃ x, t.mb = s.mb ++ x) ∧
  (∃ x, t.exMissing = s.exMissing ++ x) ∧
  (∃ x, t.exUnknown = s.exUnknown ++ x) ∧
  (∃ x, t.exMalformed = s.exMalformed ++ x)

/-- The guard invariant of the per-key pass: no name accumulated in a
location's level-local malformed list occurs in the initial missing
record of that location. -/
def malInv (m0 : List Entry) (st : CheckSt) : Prop :=
  ∀ loc : Loc, ∀ x ∈ st.m loc, ∀ m ∈ m0, m.wh = loc → x ∉ m.params

/-! ### Helper lemmas -/

theorem bind_ok {α β : Type} {x : Except Unit α} {f : α → Except Unit β} {b : β}
    (h : (x >>= f) = Except.ok b) : ∃ a, x = Except.ok a ∧ f a = Except.ok b := by
  cases x with
  | error e => simp [Bind.bind, Except.bind] at h
  | ok a => exact ⟨a, rfl, by simpa [Bind.bind, Except.bind] using h⟩

theorem mkResult_missing (m0 : List Entry) (st : CheckSt) :
    (mkResult m0 st).missing = m0 ++ st.exMissing := rfl

theorem mkResult_unknown (m0 : List Entry) (st : CheckSt) :
    (mkResult m0 st).unknown =
      [Entry.mk .query st.uq, Entry.mk .path st.up, Entry.mk .body st.ub] ++ st.exUnknown := rfl

theorem mkResult_malformed (m0 : List Entry) (st : CheckSt) :
    (mkResult m0 st).malformed =
      [Entry.mk .query st.mq, Entry.mk .path st.mp, Entry.mk .body st.mb] ++ st.exMalformed := rfl

theorem entries_any_pos_iff (l : List Entry) :
    (0 < ((l.map (fun m => m.params.length)).filter (fun n => 0 < n)).length) ↔
      ∃ e ∈ l, e.params ≠ [] := by
  rw [List.length_pos]
  constructor
  · intro h
    rcases List.exists_mem_of_ne_nil _ h with ⟨n, hn⟩
    have hn' := List.of_mem_filter hn
    rcases List.mem_map.mp (List.mem_of_mem_filter hn) with ⟨e, he, hlen⟩
    refine ⟨e, he, ?_⟩
    intro hnil
    rw [hnil] at hlen
    simp at hlen
    rw [← hlen] at hn'
    simp at hn'
  · rintro ⟨e, he, hne⟩
    intro hnil
    have : e.params.length ∈ (l.map (fun m => m.params.length)).filter (fun n => 0 < n) := by
      apply List.mem_filter.mpr
      refine ⟨List.mem_map.mpr ⟨e, he, rfl⟩, ?_⟩
      simpa [List.length_pos] using hne
    rw [hnil] at this
    simp at this

theorem mkResult_status_iff (m0 : List Entry) (st : CheckSt) :
    ((mkResult m0 st).status = true) ↔
      ((∀ e ∈ (mkResult m0 st).missing, e.params = []) ∧
       (∀ e ∈ (mkResult m0 st).unknown, e.params = []) ∧
       (∀ e ∈ (mkResult m0 st).malformed, e.params = [])) := by
  have hs : (mkResult m0 st).status =
      !(decide (0 < (((mkResult m0 st).missing.map (fun m => m.params.length)).filter (fun n => 0 < n)).length) ||
        decide (0 < (((mkResult m0 st).unknown.map (fun m => m.params.length)).filter (fun n => 0 < n)).length) ||
        decide (0 < (((mkResult m0 st).malformed.map (fun m => m.params.length)).filter (fun n => 0 < n)).length)) := rfl
  rw [hs]
  simp only [Bool.not_eq_true', Bool.or_eq_false_iff, decide_eq_false_iff_not,
    entries_any_pos_iff, not_exists]
  constructor
  · rintro ⟨⟨h1, h2⟩, h3⟩
    refine ⟨fun e he => ?_, fun e he => ?_, fun e he => ?_⟩
    · by_contra hne; exact (h1 e) ⟨he, hne⟩
    · by_contra hne; exact (h2 e) ⟨he, hne⟩
    · by_contra hne; exact (h3 e) ⟨he, hne⟩
  · rintro ⟨h1, h2, h3⟩
    exact ⟨⟨fun e hne => hne.2 (h1 e hne.1), fun e hne => hne.2 (h2 e hne.1)⟩,
           fun e hne => hne.2 (h3 e hne.1)⟩

/-- Decompose a successful top-level check into its final accumulator
state. -/
theorem check_ok_shape {strict : Bool} {defs : List PDef} {req : Req}
    {r : CheckResult} (h : check strict defs req = Except.ok r) :
    ∃ st : CheckSt, r = mkResult (mkMissing0 defs req "") st := by
  have h' : checkAux (sizeL defs + 1) strict defs req "" = Except.ok r := h
  rw [checkAux] at h'
  rcases bind_ok h' with ⟨st1, h1, h1'⟩
  rcases bind_ok h1' with ⟨st2, h2, h2'⟩
  rcases bind_ok h2' with ⟨st3, h3, h3'⟩
  exact ⟨st3, by cases h3'; rfl⟩

theorem str_empty_append (s : String) : "" ++ s = s := by
  cases s
  rfl

/-! ### Claim theorems -/

/-- C3: for every schema and input, a successful check returns
status = true if and only if every params list of the three
classifications, including entries merged in from recursive
nested-object validation, is empty. -/
theorem c3_status_iff_all_empty {strict : Bool} {defs : List PDef}
    {req : Req} {r : CheckResult} (h : check strict defs req = Except.ok r) :
    (r.status = true ↔
      ∀ e ∈ r.missing ++ r.unknown ++ r.malformed, e.params = []) := by
  rcases check_ok_shape h with ⟨st, rfl⟩
  rw [mkResult_status_iff]
  constructor
  · rintro ⟨h1, h2, h3⟩ e he
    rcases List.mem_append.mp he with he' | he'
    · rcases List.mem_append.mp he' with h'' | h''
      · exact h1 e h''
      · exact h2 e h''
    · exact h3 e he'
  · intro h
    exact ⟨fun e he => h e (List.mem_append_left _ (List.mem_append_left _ he)),
           fun e he => h e (List.mem_append_left _ (List.mem_append_right _ he)),
           fun e he => h e (List.mem_append_right _ he)⟩

theorem c3_status_iff_all_empty_witness :
    ((CheckResult.mk true e3 e3 e3).status = true ↔
      ∀ e ∈ (CheckResult.mk true e3 e3 e3).missing ++
            (CheckResult.mk true e3 e3 e3).unknown ++
            (CheckResult.mk true e3 e3 e3).malformed, e.params = []) :=
  @c3_status_iff_all_empty false [] ⟨[], [], []⟩ (CheckResult.mk true e3 e3 e3) rfl

/-- C6: every definition in scope with required = true whose name is not
a key of its declared location's input mapping is reported, under its
qualified name, in the missing list of that location. -/
theorem c6_required_missing {strict : Bool} {defs : List PDef} {req : Req}
    {r : CheckResult} {loc : Loc} {d : PDef}
    (hok : check strict defs req = Except.ok r) (hd : d ∈ defs)
    (hloc : d.location = loc) (hreq : d.required = true)
    (habs : ¬ (((req.get loc).map Prod.fst).contains d.name = true)) :
    ∃ e ∈ r.missing, e.wh = loc ∧ d.name ∈ e.params := by
  rcases check_ok_shape hok with ⟨st, rfl⟩
  rw [mkResult_missing]
  refine ⟨⟨loc, ((((defs.filter (fun d => d.location = loc)).filter
      (fun d => d.required)).map PDef.name).filter
      (fun nm => !(((req.get loc).map Prod.fst).contains nm))).map
      (fun p => "" ++ p)⟩, ?_, rfl, ?_⟩
  · apply List.mem_append_left
    apply List.mem_map.mpr
    refine ⟨loc, ?_, rfl⟩
    cases loc <;> simp
  · apply List.mem_map.mpr
    refine ⟨d.name, ?_, str_empty_append _⟩
    apply List.mem_filter.mpr
    refine ⟨?_, ?_⟩
    · apply List.mem_map.mpr
      refine ⟨d, ?_, rfl⟩
      apply List.mem_filter.mpr
      exact ⟨List.mem_filter.mpr ⟨hd, by simp [hloc]⟩, by simp [hreq]⟩
    · simpa using habs

theorem c6_required_missing_witness :
    ∃ e ∈ (CheckResult.mk false e3
      [⟨.query, []⟩, ⟨.path, []⟩, ⟨.body, ["c"]⟩] e3).missing,
      e.wh = Loc.body ∧ c10c.name ∈ e.params :=
  @c6_required_missing false [c10c] ⟨[], [], []⟩
    (CheckResult.mk false e3 [⟨.query, []⟩, ⟨.path, []⟩, ⟨.body, ["c"]⟩] e3)
    Loc.body c10c rfl (List.mem_singleton.mpr rfl) rfl rfl (by decide)

/-- C8: for the boolean query field d8, the raw value "1" is coerced to
true by values; the raw value "maybe" (outside the canonical set) is
reported malformed by check, while values on the same input coerces it
to false without any error. -/
theorem c8_boolean_coercion :
    values [d8] ⟨[("flag", .str "1")], [], []⟩ =
      Except.ok ⟨[("flag", .bool true)], [], []⟩ ∧
    check false [d8] ⟨[("flag", .str "maybe")], [], []⟩ =
      Except.ok ⟨false, e3, e3,
        [⟨.query, ["flag"]⟩, ⟨.path, []⟩, ⟨.body, []⟩]⟩ ∧
    values [d8] ⟨[("flag", .str "maybe")], [], []⟩ =
      Except.ok ⟨[("flag", .bool false)], [], []⟩ :=
  ⟨rfl, rfl, rfl⟩

/-- C1 counterexample: with an object nested inside an object, the
violation of the innermost required field is reported as p.c, the
qualified path dropping the root object gp; the full dot-joined path
gp.p.c required by the claim is never reported. -/
theorem c1_counterexample :
    (check false c1defs c1req).map collectNames = Except.ok ["p.c"] ∧
    "p.c" ∉ specQualifiedPaths c1defs ∧
    "gp.p.c" ∈ specQualifiedPaths c1defs :=
  ⟨rfl, by decide, by decide⟩

/-- C2 counterexample: values overwrites the nested field of an
already-structured body payload in place, so the caller's request
mapping differs after the call. -/
theorem c2_counterexample :
    valuesEff c2defs c2req =
      Except.ok (⟨[], [], [("a", .obj (.cons ("b") (.bool true) .nil))]⟩,
        c2reqAfter) ∧ c2reqAfter ≠ c2req := by
  refine ⟨rfl, ?_⟩
  intro h
  have hb := congrArg Req.body h
  simp [c2reqAfter, c2req] at hb

/-- C9 counterexample: an already-structured (non-string) payload for an
object-typed definition with properties makes check abort (JSON.parse is
applied to its stringification, the unparsable text [object Object]),
refuting the claim that only string values can abort the computation. -/
theorem c9_counterexample :
    check false c9defs c9req = Except.error () ∧
    getRaw c9req .body ("a") = JsValue.obj .nil :=
  ⟨rfl, rfl⟩

/-- C4 counterexample: the qualified name b.c is recorded in missing for
query (a required dotted-name definition is absent) and the same name is
recorded in malformed for query by the merged nested validation of the
object definition b, so the two lists are not disjoint. -/
theorem c4_counterexample :
    (check false c4defs c4req).map (fun r =>
      decide (∃ e ∈ r.missing, e.wh = Loc.query ∧ "b.c" ∈ e.params) &&
      decide (∃ e ∈ r.malformed, e.wh = Loc.query ∧ "b.c" ∈ e.params)) =
    Except.ok true := rfl

theorem stLe_refl (s : CheckSt) : stLe s s := by
  refine ⟨⟨[], ?_⟩, ⟨[], ?_⟩, ⟨[], ?_⟩, ⟨[], ?_⟩, ⟨[], ?_⟩, ⟨[], ?_⟩,
    ⟨[], ?_⟩, ⟨[], ?_⟩, ⟨[], ?_⟩⟩ <;> simp

theorem stLe_trans {a b c : CheckSt} (h1 : stLe a b) (h2 : stLe b c) :
    stLe a c := by
  obtain ⟨⟨x1, e1⟩, ⟨x2, e2⟩, ⟨x3, e3'⟩, ⟨x4, e4⟩, ⟨x5, e5⟩, ⟨x6, e6⟩,
    ⟨x7, e7⟩, ⟨x8, e8⟩, ⟨x9, e9⟩⟩ := h1
  obtain ⟨⟨y1, f1⟩, ⟨y2, f2⟩, ⟨y3, f3⟩, ⟨y4, f4⟩, ⟨y5, f5⟩, ⟨y6, f6⟩,
    ⟨y7, f7⟩, ⟨y8, f8⟩, ⟨y9, f9⟩⟩ := h2
  exact ⟨⟨x1 ++ y1, by simp [f1, e1]⟩, ⟨x2 ++ y2, by simp [f2, e2]⟩,
    ⟨x3 ++ y3, by simp [f3, e3']⟩, ⟨x4 ++ y4, by simp [f4, e4]⟩,
    ⟨x5 ++ y5, by simp [f5, e5]⟩, ⟨x6 ++ y6, by simp [f6, e6]⟩,
    ⟨x7 ++ y7, by simp [f7, e7]⟩, ⟨x8 ++ y8, by simp [f8, e8]⟩,
    ⟨x9 ++ y9, by simp [f9, e9]⟩⟩

theorem stLe_pushU (st : CheckSt) (loc : Loc) (x : String) :
    stLe st (st.pushU loc x) := by
  have hn : ∀ l : List String, l = l ++ [] := fun l => (List.append_nil l).symm
  have he : ∀ l : List Entry, l = l ++ [] := fun l => (List.append_nil l).symm
  cases loc
  · exact ⟨⟨[x], rfl⟩, ⟨[], hn _⟩, ⟨[], hn _⟩, ⟨[], hn _⟩, ⟨[], hn _⟩,
      ⟨[], hn _⟩, ⟨[], he _⟩, ⟨[], he _⟩, ⟨[], he _⟩⟩
  · exact ⟨⟨[], hn _⟩, ⟨[x], rfl⟩, ⟨[], hn _⟩, ⟨[], hn _⟩, ⟨[], hn _⟩,
      ⟨[], hn _⟩, ⟨[], he _⟩, ⟨[], he _⟩, ⟨[], he _⟩⟩
  · exact ⟨⟨[], hn _⟩, ⟨[], hn _⟩, ⟨[x], rfl⟩, ⟨[], hn _⟩, ⟨[], hn _⟩,
      ⟨[], hn _⟩, ⟨[], he _⟩, ⟨[], he _⟩, ⟨[], he _⟩⟩

theorem stLe_pushM (st : CheckSt) (loc : Loc) (x : String) :
    stLe st (st.pushM loc x) := by
  have hn : ∀ l : List String, l = l ++ [] := fun l => (List.append_nil l).symm
  have he : ∀ l : List Entry, l = l ++ [] := fun l => (List.append_nil l).symm
  cases loc
  · exact ⟨⟨[], hn _⟩, ⟨[], hn _⟩, ⟨[], hn _⟩, ⟨[x], rfl⟩, ⟨[], hn _⟩,
      ⟨[], hn _⟩, ⟨[], he _⟩, ⟨[], he _⟩, ⟨[], he _⟩⟩
  · exact ⟨⟨[], hn _⟩, ⟨[], hn _⟩, ⟨[], hn _⟩, ⟨[], hn _⟩, ⟨[x], rfl⟩,
      ⟨[], hn _⟩, ⟨[], he _⟩, ⟨[], he _⟩, ⟨[], he _⟩⟩
  · exact ⟨⟨[], hn _⟩, ⟨[], hn _⟩, ⟨[], hn _⟩, ⟨[], hn _⟩, ⟨[], hn _⟩,
      ⟨[x], rfl⟩, ⟨[], he _⟩, ⟨[], he _⟩, ⟨[], he _⟩⟩

theorem stLe_merge (st : CheckSt) (ms us mals : List Entry) :
    stLe st { st with exMissing := st.exMissing ++ ms, exUnknown := st.exUnknown ++ us, exMalformed := st.exMalformed ++ mals } :=
  ⟨⟨[], by simp⟩, ⟨[], by simp⟩, ⟨[], by simp⟩, ⟨[], by simp⟩, ⟨[], by simp⟩,
   ⟨[], by simp⟩, ⟨ms, rfl⟩, ⟨us, rfl⟩, ⟨mals, rfl⟩⟩

/-- A successful per-key step only extends the accumulators. -/
theorem processKeyF_stLe {rc : List PDef → Req → String → Except Unit CheckResult}
    {strict : Bool} {defs : List PDef} {pre : String} {m0 : List Entry}
    {loc : Loc} {name : String} {value : JsValue} {st st' : CheckSt}
    (h : processKeyF rc strict defs pre m0 loc name value st = Except.ok st') :
    stLe st st' := by
  unfold processKeyF at h
  split at h
  · split at h
    · cases h; exact stLe_pushU _ _ _
    · cases h; exact stLe_refl _
  · split at h
    · cases h; exact stLe_refl _
    · split at h
      · split at h
        · rcases bind_ok h with ⟨s, hs, h'⟩
          split at h'
          · cases h'; exact stLe_refl _
          · cases h'; exact stLe_pushM _ _ _
        · split at h
          · cases h; exact stLe_refl _
          · cases h; exact stLe_pushM _ _ _
      · split at h
        · cases h; exact stLe_refl _
        · cases h; exact stLe_pushM _ _ _
      · split at h
        · cases h; exact stLe_refl _
        · cases h; exact stLe_pushM _ _ _
      · split at h
        · cases h; exact stLe_refl _
        · rcases bind_ok h with ⟨parsed, hp, h'⟩
          rcases bind_ok h' with ⟨res, hr, h''⟩
          split at h''
          · cases h''; exact stLe_refl _
          · cases h''; exact stLe_merge _ _ _ _
      · cases h; exact stLe_refl _

/-- A successful location pass only extends the accumulators. -/
theorem processLocF_stLe {rc : List PDef → Req → String → Except Unit CheckResult}
    {strict : Bool} {defs : List PDef} {pre : String} {m0 : List Entry}
    {loc : Loc} {pairs : List (String × JsValue)} {st st' : CheckSt}
    (h : processLocF rc strict defs pre m0 loc pairs st = Except.ok st') :
    stLe st st' := by
  induction pairs generalizing st with
  | nil => cases h; exact stLe_refl _
  | cons p rest ih =>
      rcases p with ⟨k, v⟩
      rcases bind_ok h with ⟨s1, h1, h2⟩
      exact stLe_trans (processKeyF_stLe h1) (ih h2)

/-- Splitting a location pass at a list split point. -/
theorem processLocF_append (rc : List PDef → Req → String → Except Unit CheckResult)
    (strict : Bool) (defs : List PDef) (pre : String) (m0 : List Entry)
    (loc : Loc) (l1 l2 : List (String × JsValue)) (st : CheckSt) :
    processLocF rc strict defs pre m0 loc (l1 ++ l2) st =
      (processLocF rc strict defs pre m0 loc l1 st) >>=
        (fun st' => processLocF rc strict defs pre m0 loc l2 st') := by
  induction l1 generalizing st with
  | nil => simp [processLocF, Bind.bind, Except.bind]
  | cons p rest ih =>
      rcases p with ⟨k, v⟩
      show (processKeyF rc strict defs pre m0 loc k v st >>=
          fun st' => processLocF rc strict defs pre m0 loc (rest ++ l2) st') = _
      cases hk : processKeyF rc strict defs pre m0 loc k v st with
      | error e => simp [processLocF, hk, Bind.bind, Except.bind]
      | ok s1 => simp [processLocF, hk, Bind.bind, Except.bind, ih]

/-- The unknown push leaves the malformed and merged accumulators
untouched. -/
theorem pushU_preserves (st : CheckSt) (loc : Loc) (x : String) :
    (st.pushU loc x).mq = st.mq ∧ (st.pushU loc x).mp = st.mp ∧
    (st.pushU loc x).mb = st.mb ∧ (st.pushU loc x).exMissing = st.exMissing ∧
    (st.pushU loc x).exUnknown = st.exUnknown ∧
    (st.pushU loc x).exMalformed = st.exMalformed := by
  cases loc <;> exact ⟨rfl, rfl, rfl, rfl, rfl, rfl⟩

/-- When a location has no definitions at all, its pass never fails and
touches only the unknown accumulators. -/
theorem processLocF_no_defs {rc : List PDef → Req → String → Except Unit CheckResult}
    {strict : Bool} {defs : List PDef} {pre : String} {m0 : List Entry}
    {loc : Loc} (pairs : List (String × JsValue)) (st : CheckSt)
    (hnone : defs.filter (fun d => d.location = loc) = []) :
    ∃ st', processLocF rc strict defs pre m0 loc pairs st = Except.ok st' ∧
      st'.mq = st.mq ∧ st'.mp = st.mp ∧ st'.mb = st.mb ∧
      st'.exMissing = st.exMissing ∧ st'.exUnknown = st.exUnknown ∧
      st'.exMalformed = st.exMalformed := by
  induction pairs generalizing st with
  | nil => exact ⟨st, rfl, rfl, rfl, rfl, rfl, rfl, rfl⟩
  | cons p rest ih =>
      rcases p with ⟨k, v⟩
      cases strict with
      | false =>
          have hkey : processKeyF rc false defs pre m0 loc k v st =
              Except.ok st := by
            unfold processKeyF
            rw [hnone]
            rfl
          rcases ih st with ⟨st', hst', hf⟩
          refine ⟨st', ?_, hf⟩
          show (processKeyF rc false defs pre m0 loc k v st >>=
              fun s => processLocF rc false defs pre m0 loc rest s) = _
          rw [hkey]
          simpa [Bind.bind, Except.bind] using hst'
      | true =>
          have hkey : processKeyF rc true defs pre m0 loc k v st =
              Except.ok (st.pushU loc (pre ++ k)) := by
            unfold processKeyF
            rw [hnone]
            rfl
          rcases ih (st.pushU loc (pre ++ k)) with
            ⟨st', hst', h1, h2, h3, h4, h5, h6⟩
          obtain ⟨p1, p2, p3, p4, p5, p6⟩ := pushU_preserves st loc (pre ++ k)
          refine ⟨st', ?_, h1.trans p1, h2.trans p2, h3.trans p3,
            h4.trans p4, h5.trans p5, h6.trans p6⟩
          show (processKeyF rc true defs pre m0 loc k v st >>=
              fun s => processLocF rc true defs pre m0 loc rest s) = _
          rw [hkey]
          simpa [Bind.bind, Except.bind] using hst'

/-- C10: in the recursive validation of an object-typed field only the
parent's own location of the synthetic request is populated, so a nested
required definition declared for a different location is matched against
an empty mapping and is reported missing under its qualified name,
whatever the parsed payload contains. -/
theorem c10_cross_location_missing (strict : Bool) (s : String) (pv : JsValue)
    (hp : jsonParse s = Except.ok pv) :
    ∃ r, check strict c10defs ⟨[("a", .str s)], [], []⟩ = Except.ok r ∧
      ∃ e ∈ r.missing, e.wh = Loc.body ∧ "a.c" ∈ e.params := by
  obtain ⟨st', hst', hmq, hmp, hmb, hexm, hexu, hexmal⟩ :=
    @processLocF_no_defs (fun ds rq p => checkAux 3 strict ds rq p)
      strict [c10c] ("a" ++ ".")
      [⟨.query, []⟩, ⟨.path, []⟩, ⟨.body, ["a.c"]⟩]
      .query (toMapping pv) st0 rfl
  have hrec : checkAux 4 strict [c10c] (singleReq .query (toMapping pv)) ("a" ++ ".") =
      Except.ok (mkResult [⟨.query, []⟩, ⟨.path, []⟩, ⟨.body, ["a.c"]⟩] st') := by
    rw [show (4 : Nat) = 3 + 1 from rfl, checkAux]
    have hm0 : mkMissing0 [c10c] (singleReq .query (toMapping pv)) ("a" ++ ".") =
        [⟨.query, []⟩, ⟨.path, []⟩, ⟨.body, ["a.c"]⟩] := rfl
    have h1 : (singleReq .query (toMapping pv)).query = toMapping pv := rfl
    have h2 : (singleReq .query (toMapping pv)).path = [] := rfl
    have h3 : (singleReq .query (toMapping pv)).body = [] := rfl
    rw [hm0, h1, h2, h3, hst']
    simp [Bind.bind, Except.bind, processLocF]
  have hstatus : (mkResult [⟨.query, []⟩, ⟨.path, []⟩, ⟨.body, ["a.c"]⟩] st').status = false := by
    cases hq : (mkResult [⟨.query, []⟩, ⟨.path, []⟩, ⟨.body, ["a.c"]⟩] st').status
    · rfl
    · exfalso
      have hall := (mkResult_status_iff _ _).mp hq
      have hmem : (⟨.body, ["a.c"]⟩ : Entry) ∈
          (mkResult [⟨.query, []⟩, ⟨.path, []⟩, ⟨.body, ["a.c"]⟩] st').missing := by
        rw [mkResult_missing]
        exact List.mem_append_left _ (by simp)
      have := hall.1 _ hmem
      simp at this
  have hkey : processKeyF (fun ds rq p => checkAux 4 strict ds rq p) strict
      c10defs "" e3 .query ("a") (.str s) st0 =
      (jsonParseValue (.str s) >>= fun parsed =>
        (checkAux 4 strict [c10c] (singleReq .query (toMapping parsed)) ("a" ++ ".")) >>=
          fun res =>
            if res.status then Except.ok st0
            else Except.ok { st0 with
              exMissing := st0.exMissing ++ res.missing,
              exMalformed := st0.exMalformed ++ res.malformed,
              exUnknown := st0.exUnknown ++ res.unknown }) := rfl
  have hjp : jsonParseValue (.str s) = jsonParse s := rfl
  rw [hjp, hp] at hkey
  have hbind : (Except.ok pv >>= fun parsed =>
        (checkAux 4 strict [c10c] (singleReq .query (toMapping parsed)) ("a" ++ ".")) >>=
          fun res =>
            if res.status then Except.ok st0
            else Except.ok { st0 with
              exMissing := st0.exMissing ++ res.missing,
              exMalformed := st0.exMalformed ++ res.malformed,
              exUnknown := st0.exUnknown ++ res.unknown }) =
      ((checkAux 4 strict [c10c] (singleReq .query (toMapping pv)) ("a" ++ ".")) >>=
          fun res =>
            if res.status then Except.ok st0
            else Except.ok { st0 with
              exMissing := st0.exMissing ++ res.missing,
              exMalformed := st0.exMalformed ++ res.malformed,
              exUnknown := st0.exUnknown ++ res.unknown }) := rfl
  rw [hbind, hrec] at hkey
  have hbind2 : ∀ g : CheckResult → Except Unit CheckSt,
      (Except.ok (mkResult [⟨.query, []⟩, ⟨.path, []⟩, ⟨.body, ["a.c"]⟩] st') >>= g) =
        g (mkResult [⟨.query, []⟩, ⟨.path, []⟩, ⟨.body, ["a.c"]⟩] st') :=
    fun g => rfl
  rw [hbind2, hstatus] at hkey
  simp only [Bool.false_eq_true, if_false] at hkey
  refine ⟨mkResult e3 { st0 with
      exMissing := st0.exMissing ++ (mkResult [⟨.query, []⟩, ⟨.path, []⟩, ⟨.body, ["a.c"]⟩] st').missing,
      exMalformed := st0.exMalformed ++ (mkResult [⟨.query, []⟩, ⟨.path, []⟩, ⟨.body, ["a.c"]⟩] st').malformed,
      exUnknown := st0.exUnknown ++ (mkResult [⟨.query, []⟩, ⟨.path, []⟩, ⟨.body, ["a.c"]⟩] st').unknown }, ?_, ?_⟩
  · show checkAux (sizeL c10defs + 1) strict c10defs ⟨[("a", .str s)], [], []⟩ "" = _
    rw [show sizeL c10defs + 1 = 4 + 1 from rfl, checkAux]
    have hm0top : mkMissing0 c10defs ⟨[("a", .str s)], [], []⟩ "" = e3 := rfl
    rw [hm0top]
    show (processLocF (fun ds rq p => checkAux 4 strict ds rq p) strict c10defs ""
        e3 .query [("a", .str s)] st0 >>= _) = _
    have hloc1 : processLocF (fun ds rq p => checkAux 4 strict ds rq p) strict c10defs ""
        e3 .query [("a", .str s)] st0 =
        Except.ok { st0 with
          exMissing := st0.exMissing ++ (mkResult [⟨.query, []⟩, ⟨.path, []⟩, ⟨.body, ["a.c"]⟩] st').missing,
          exMalformed := st0.exMalformed ++ (mkResult [⟨.query, []⟩, ⟨.path, []⟩, ⟨.body, ["a.c"]⟩] st').malformed,
          exUnknown := st0.exUnknown ++ (mkResult [⟨.query, []⟩, ⟨.path, []⟩, ⟨.body, ["a.c"]⟩] st').unknown } := by
      show (processKeyF (fun ds rq p => checkAux 4 strict ds rq p) strict
          c10defs "" e3 .query ("a") (.str s) st0 >>= fun st1 =>
            processLocF (fun ds rq p => checkAux 4 strict ds rq p) strict c10defs ""
              e3 .query [] st1) = _
      rw [hkey]
      rfl
    rw [hloc1]
    simp [Bind.bind, Except.bind, processLocF]
  · refine ⟨⟨.body, ["a.c"]⟩, ?_, rfl, by simp⟩
    rw [mkResult_missing]
    apply List.mem_append_right
    show _ ∈ st0.exMissing ++ (mkResult _ st').missing
    rw [mkResult_missing, hexm]
    simp


theorem c10_cross_location_missing_witness :
    ∃ r, check false c10defs ⟨[("a", .str ("\x7b\x7d"))], [], []⟩ = Except.ok r ∧
      ∃ e ∈ r.missing, e.wh = Loc.body ∧ "a.c" ∈ e.params :=
  c10_cross_location_missing false ("\x7b\x7d") (.obj .nil) rfl

theorem ok_bind {α β : Type} (a : α) (f : α → Except Unit β) :
    (Except.ok a >>= f) = f a := rfl

/-- Unfolding of the per-key pass when the key has no matching
definition. -/
theorem processKeyF_none_eq {rc : List PDef → Req → String → Except Unit CheckResult}
    {strict : Bool} {defs : List PDef} {pre : String} {m0 : List Entry}
    {loc : Loc} {name : String} {value : JsValue} {st : CheckSt}
    (hfind : (defs.filter (fun d => d.location = loc)).find?
      (fun d => d.name = name) = Option.none) :
    processKeyF rc strict defs pre m0 loc name value st =
      (if strict then Except.ok (st.pushU loc (pre ++ name)) else Except.ok st) := by
  unfold processKeyF
  rw [hfind]

/-- Unfolding of the per-key pass when the key resolves to a
definition. -/
theorem processKeyF_some_eq {rc : List PDef → Req → String → Except Unit CheckResult}
    {strict : Bool} {defs : List PDef} {pre : String} {m0 : List Entry}
    {loc : Loc} {name : String} {value : JsValue} {st : CheckSt} {d : PDef}
    (hfind : (defs.filter (fun d => d.location = loc)).find?
      (fun d => d.name = name) = Option.some d) :
    processKeyF rc strict defs pre m0 loc name value st =
      (if (m0 ++ st.exMissing).any
          (fun m => m.wh = loc && m.params.contains (pre ++ name)) then
        Except.ok st
      else
        match d.type with
        | .number =>
            if d.isArray then do
              let s ← asString value
              if (jsSplit s d.elementsDivider).foldl
                  (fun acc v => acc && (strToNumber v).isSome) true then
                Except.ok st
              else Except.ok (st.pushM loc (pre ++ name))
            else
              if (jsToNumber value).isSome then Except.ok st
              else Except.ok (st.pushM loc (pre ++ name))
        | .date =>
            if (dateFromValue value).isSome then Except.ok st
            else Except.ok (st.pushM loc (pre ++ name))
        | .boolean =>
            if isCanonicalBool value then Except.ok st
            else Except.ok (st.pushM loc (pre ++ name))
        | .object =>
            match d.properties with
            | .absent => Except.ok st
            | .given props => do
                let parsed ← jsonParseValue value
                let fakeReq := singleReq d.location (toMapping parsed)
                let res ← rc props.toList fakeReq (name ++ ".")
                if res.status then Except.ok st
                else Except.ok { st with
                  exMissing := st.exMissing ++ res.missing,
                  exMalformed := st.exMalformed ++ res.malformed,
                  exUnknown := st.exUnknown ++ res.unknown }
        | .string => Except.ok st) := by
  unfold processKeyF
  rw [hfind]

/-- The per-key pass cannot fail when no definition in scope is
array-flagged or object-typed (no split of a non-string, no JSON.parse). -/
theorem processKeyF_total {rc : List PDef → Req → String → Except Unit CheckResult}
    {strict : Bool} {defs : List PDef} {pre : String} {m0 : List Entry}
    {loc : Loc} {name : String} {value : JsValue} (st : CheckSt)
    (h : ∀ d ∈ defs, d.isArray = false ∧ d.type ≠ PType.object) :
    ∃ st', processKeyF rc strict defs pre m0 loc name value st = Except.ok st' := by
  cases hfind : (defs.filter (fun d => d.location = loc)).find?
      (fun d => d.name = name) with
  | none =>
      rw [processKeyF_none_eq hfind]
      cases strict
      · exact ⟨st, rfl⟩
      · exact ⟨st.pushU loc (pre ++ name), rfl⟩
  | some d =>
      have hd : d ∈ defs :=
        List.mem_of_mem_filter (List.mem_of_find?_eq_some hfind)
      obtain ⟨hna, hno⟩ := h d hd
      rw [processKeyF_some_eq hfind]
      cases hg : (m0 ++ st.exMissing).any
          (fun m => m.wh = loc && m.params.contains (pre ++ name)) with
      | true => exact ⟨st, rfl⟩
      | false =>
          cases ht : d.type with
          | string => exact ⟨st, rfl⟩
          | number =>
              rw [hna]
              cases hn : (jsToNumber value).isSome
              · exact ⟨st.pushM loc (pre ++ name), rfl⟩
              · exact ⟨st, rfl⟩
          | boolean =>
              cases hb : isCanonicalBool value
              · exact ⟨st.pushM loc (pre ++ name), rfl⟩
              · exact ⟨st, rfl⟩
          | date =>
              cases hdt : (dateFromValue value).isSome
              · exact ⟨st.pushM loc (pre ++ name), rfl⟩
              · exact ⟨st, rfl⟩
          | object => exact absurd ht hno

/-- The location pass cannot fail when no definition in scope is
array-flagged or object-typed. -/
theorem processLocF_total {rc : List PDef → Req → String → Except Unit CheckResult}
    {strict : Bool} {defs : List PDef} {pre : String} {m0 : List Entry}
    {loc : Loc} (pairs : List (String × JsValue)) (st : CheckSt)
    (h : ∀ d ∈ defs, d.isArray = false ∧ d.type ≠ PType.object) :
    ∃ st', processLocF rc strict defs pre m0 loc pairs st = Except.ok st' := by
  induction pairs generalizing st with
  | nil => exact ⟨st, rfl⟩
  | cons p rest ih =>
      rcases p with ⟨k, v⟩
      obtain ⟨s1, h1⟩ := @processKeyF_total rc strict defs pre m0 loc k v st h
      obtain ⟨s2, h2⟩ := ih s1
      refine ⟨s2, ?_⟩
      show (processKeyF rc strict defs pre m0 loc k v st >>= fun s =>
        processLocF rc strict defs pre m0 loc rest s) = _
      rw [h1, ok_bind, h2]

/-- Unfolding of parseValue at positive fuel. -/
theorem parseValueAux_succ_eq (fuel : Nat) (v : JsValue) (d : PDef) :
    parseValueAux (fuel + 1) v d =
      (if isNullish v then Except.ok d.dflt
      else
        match d.type with
        | .number =>
            if d.isArray then do
              let s ← asString v
              Except.ok (JsValue.arr (JsArr.ofList
                ((jsSplit s d.elementsDivider).map
                  (fun w => numToValue (strToNumber w)))))
            else Except.ok (numToValue (jsToNumber v))
        | .date => Except.ok (numToValue ((dateFromValue v).map (fun t => (t : ℚ))))
        | .boolean =>
            if d.isArray then do
              let s ← asString v
              Except.ok (JsValue.arr (JsArr.ofList
                ((jsSplit s d.elementsDivider).map
                  (fun w => JsValue.bool (tokenIsTrue w)))))
            else Except.ok (JsValue.bool (isTrueRepr v))
        | .object => do
            let objValue ← (match v with
                            | .str s => jsonParse s
                            | w => Except.ok w)
            parsePropsAuxF (fun w dd => parseValueAux fuel w dd)
              (PProps.toListD d.properties) objValue
        | .string =>
            if d.isArray then do
              let s ← asString v
              Except.ok (JsValue.arr (JsArr.ofList
                ((jsSplit s d.elementsDivider).map JsValue.str)))
            else Except.ok v) := rfl

/-- parseValue cannot fail on a definition that is neither array-flagged
nor object-typed. -/
theorem parseValueAux_total (fuel : Nat) (v : JsValue) (d : PDef)
    (hna : d.isArray = false) (hno : d.type ≠ PType.object) :
    ∃ w, parseValueAux (fuel + 1) v d = Except.ok w := by
  rw [parseValueAux_succ_eq]
  cases hnull : isNullish v with
  | true => exact ⟨d.dflt, rfl⟩
  | false =>
      cases ht : d.type with
      | string =>
          rw [hna]
          exact ⟨v, rfl⟩
      | number =>
          rw [hna]
          exact ⟨numToValue (jsToNumber v), rfl⟩
      | boolean =>
          rw [hna]
          exact ⟨JsValue.bool (isTrueRepr v), rfl⟩
      | date => exact ⟨numToValue ((dateFromValue v).map (fun t => (t : ℚ))), rfl⟩
      | object => exact absurd ht hno

theorem foldlM_cons_except {α β : Type} (f : β → α → Except Unit β)
    (b : β) (a : α) (l : List α) :
    List.foldlM f b (a :: l) = (f b a >>= fun b' => List.foldlM f b' l) := rfl

/-- C9 amended, positive part: domain errors never raise; for a schema
with no array-flagged and no object-typed definition neither check nor
values can abort on any input (all remaining conversions are total). -/
theorem c9_no_abort_without_array_object (strict : Bool) (defs : List PDef)
    (req : Req) (h : ∀ d ∈ defs, d.isArray = false ∧ d.type ≠ PType.object) :
    (∃ r, check strict defs req = Except.ok r) ∧
    (∃ vr, values defs req = Except.ok vr) := by
  constructor
  · obtain ⟨st1, h1⟩ := @processLocF_total
      (fun ds rq p => checkAux (sizeL defs) strict ds rq p)
      strict defs ("") (mkMissing0 defs req "") .query req.query st0 h
    obtain ⟨st2, h2⟩ := @processLocF_total
      (fun ds rq p => checkAux (sizeL defs) strict ds rq p)
      strict defs ("") (mkMissing0 defs req "") .path req.path st1 h
    obtain ⟨st3, h3⟩ := @processLocF_total
      (fun ds rq p => checkAux (sizeL defs) strict ds rq p)
      strict defs ("") (mkMissing0 defs req "") .body req.body st2 h
    refine ⟨mkResult (mkMissing0 defs req "") st3, ?_⟩
    show checkAux (sizeL defs + 1) strict defs req "" = _
    rw [checkAux, h1, ok_bind, h2, ok_bind, h3, ok_bind]
  · have hs : ∀ (ds : List PDef) (acc : ValueResult × Req),
        (∀ d ∈ ds, d.isArray = false ∧ d.type ≠ PType.object) →
        ∃ out, List.foldlM
          (valStep (fun v d => parseValueAux (sizeL defs + 1) v d)) acc ds =
            Except.ok out := by
      intro ds
      induction ds with
      | nil => intro acc h'; exact ⟨acc, rfl⟩
      | cons d rest ih =>
          intro acc h'
          obtain ⟨hna, hno⟩ := h' d (List.mem_cons_self _ _)
          obtain ⟨w, hw⟩ := parseValueAux_total (sizeL defs)
            (getRaw acc.2 d.location d.name) d hna hno
          have hstep : ∃ acc', valStep
              (fun v d => parseValueAux (sizeL defs + 1) v d) acc d =
                Except.ok acc' := by
            unfold valStep
            dsimp only
            rw [hw, ok_bind]
            exact ⟨_, rfl⟩
          obtain ⟨acc', hacc'⟩ := hstep
          obtain ⟨out, hout⟩ := ih acc'
            (fun d hd => h' d (List.mem_cons_of_mem _ hd))
          exact ⟨out, by rw [foldlM_cons_except, hacc', ok_bind, hout]⟩
    obtain ⟨out, hout⟩ := hs defs (⟨[], [], []⟩, req) h
    refine ⟨out.1, ?_⟩
    show (valuesEff defs req).map (fun p => p.1) = _
    unfold valuesEff
    rw [hout]
    rfl

theorem c9_no_abort_without_array_object_witness :
    (∃ r, check false [d8] ⟨[("flag", .str "1")], [], []⟩ = Except.ok r) ∧
    (∃ vr, values [d8] ⟨[("flag", .str "1")], [], []⟩ = Except.ok vr) :=
  c9_no_abort_without_array_object false [d8] ⟨[("flag", .str "1")], [], []⟩
    (by decide)

/-- C2 amended: check is modelled as a pure function of the request, and
values leaves the caller's mappings unchanged whenever no definition is
object-typed (the only coercion that writes into an already-structured
payload in place). -/
theorem c2_values_no_mutation_without_objects (defs : List PDef) (req : Req)
    (vr : ValueResult) (req' : Req)
    (h : ∀ d ∈ defs, d.type ≠ PType.object)
    (hok : valuesEff defs req = Except.ok (vr, req')) : req' = req := by
  have hs : ∀ (ds : List PDef) (acc out : ValueResult × Req),
      (∀ d ∈ ds, d.type ≠ PType.object) →
      List.foldlM (valStep (fun v d => parseValueAux (sizeL defs + 1) v d))
        acc ds = Except.ok out → out.2 = acc.2 := by
    intro ds
    induction ds with
    | nil =>
        intro acc out _ hfold
        cases hfold
        rfl
    | cons d rest ih =>
        intro acc out h' hfold
        rw [foldlM_cons_except] at hfold
        rcases bind_ok hfold with ⟨acc', h1, h2⟩
        have hne : d.type ≠ PType.object := h' d (List.mem_cons_self _ _)
        have hacc : acc'.2 = acc.2 := by
          unfold valStep at h1
          dsimp only at h1
          rcases bind_ok h1 with ⟨w, hw, h1'⟩
          have hdec : decide (d.type = PType.object) = false := decide_eq_false hne
          rw [hdec] at h1'
          simp only [Bool.false_and, Bool.and_eq_false_imp, if_false,
            Bool.false_eq_true] at h1'
          cases h1'
          rfl
        rw [ih acc' out (fun d hd => h' d (List.mem_cons_of_mem _ hd)) h2, hacc]
  exact hs defs (⟨[], [], []⟩, req) (vr, req') h hok

theorem c2_values_no_mutation_without_objects_witness :
    (⟨[("flag", .bool true)], [], []⟩ : Req) = ⟨[("flag", .bool true)], [], []⟩ :=
  c2_values_no_mutation_without_objects [d8] ⟨[("flag", .bool true)], [], []⟩
    ⟨[("flag", .bool true)], [], []⟩ ⟨[("flag", .bool true)], [], []⟩
    (by decide) rfl

theorem m_pushU_eq (st : CheckSt) (loc : Loc) (x : String) (loc' : Loc) :
    (st.pushU loc x).m loc' = st.m loc' := by
  cases loc <;> cases loc' <;> rfl

theorem m_pushM_self (st : CheckSt) (loc : Loc) (x : String) :
    (st.pushM loc x).m loc = st.m loc ++ [x] := by
  cases loc <;> rfl

theorem m_pushM_ne (st : CheckSt) (loc : Loc) (x : String) (loc' : Loc)
    (h : loc' ≠ loc) : (st.pushM loc x).m loc' = st.m loc' := by
  cases loc <;> cases loc' <;> first | rfl | exact absurd rfl h

theorem malInv_pushM {m0 : List Entry} {st : CheckSt} {loc : Loc} {x : String}
    (hinv : malInv m0 st)
    (hx : ∀ m ∈ m0, m.wh = loc → x ∉ m.params) :
    malInv m0 (st.pushM loc x) := by
  intro loc' y hy m hm hwh
  by_cases hl : loc' = loc
  · subst hl
    rw [m_pushM_self] at hy
    rcases List.mem_append.mp hy with hy' | hy'
    · exact hinv loc' y hy' m hm hwh
    · rcases List.mem_singleton.mp hy' with rfl
      exact hx m hm hwh
  · rw [m_pushM_ne _ _ _ _ hl] at hy
    exact hinv loc' y hy m hm hwh

theorem malInv_pushU {m0 : List Entry} {st : CheckSt} {loc : Loc} {x : String}
    (hinv : malInv m0 st) : malInv m0 (st.pushU loc x) := by
  intro loc' y hy m hm hwh
  rw [m_pushU_eq] at hy
  exact hinv loc' y hy m hm hwh

/-- A successful per-key step preserves the guard invariant: a name is
pushed into a level-local malformed list only after the guard found it
absent from the missing records. -/
theorem processKeyF_malInv {rc : List PDef → Req → String → Except Unit CheckResult}
    {strict : Bool} {defs : List PDef} {pre : String} {m0 : List Entry}
    {loc : Loc} {name : String} {value : JsValue} {st st' : CheckSt}
    (h : processKeyF rc strict defs pre m0 loc name value st = Except.ok st')
    (hinv : malInv m0 st) : malInv m0 st' := by
  cases hfind : (defs.filter (fun d => d.location = loc)).find?
      (fun d => d.name = name) with
  | none =>
      rw [processKeyF_none_eq hfind] at h
      cases strict
      · cases h
        exact hinv
      · cases h
        exact malInv_pushU hinv
  | some d =>
      rw [processKeyF_some_eq hfind] at h
      cases hg : (m0 ++ st.exMissing).any
          (fun m => m.wh = loc && m.params.contains (pre ++ name)) with
      | true =>
          rw [hg] at h
          cases h
          exact hinv
      | false =>
          rw [hg] at h
          have hguard : ∀ m ∈ m0, m.wh = loc → (pre ++ name) ∉ m.params := by
            intro m hm hwh hmem
            have := List.any_eq_false.mp hg m (List.mem_append_left _ hm)
            apply this
            rw [hwh]
            simp [hmem]
          rw [if_neg (by simp [hg])] at h
          cases ht : d.type with
          | string =>
              rw [ht] at h
              cases h
              exact hinv
          | number =>
              rw [ht] at h
              cases ha : d.isArray with
              | true =>
                  rw [ha] at h
                  simp only [if_true] at h
                  rcases bind_ok h with ⟨s, hs, h'⟩
                  cases hc : (jsSplit s d.elementsDivider).foldl
                      (fun acc v => acc && (strToNumber v).isSome) true with
                  | true =>
                      rw [hc] at h'
                      simp only [if_true] at h'
                      cases h'
                      exact hinv
                  | false =>
                      rw [hc] at h'
                      simp only [Bool.false_eq_true, if_false] at h'
                      cases h'
                      exact malInv_pushM hinv hguard
              | false =>
                  rw [ha] at h
                  simp only [Bool.false_eq_true, if_false] at h
                  cases hn : (jsToNumber value).isSome with
                  | true =>
                      rw [hn] at h
                      simp only [if_true] at h
                      cases h
                      exact hinv
                  | false =>
                      rw [hn] at h
                      simp only [Bool.false_eq_true, if_false] at h
                      cases h
                      exact malInv_pushM hinv hguard
          | date =>
              rw [ht] at h
              cases hn : (dateFromValue value).isSome with
              | true =>
                  rw [hn] at h
                  simp only [if_true] at h
                  cases h
                  exact hinv
              | false =>
                  rw [hn] at h
                  simp only [Bool.false_eq_true, if_false] at h
                  cases h
                  exact malInv_pushM hinv hguard
          | boolean =>
              rw [ht] at h
              cases hn : isCanonicalBool value with
              | true =>
                  rw [hn] at h
                  simp only [if_true] at h
                  cases h
                  exact hinv
              | false =>
                  rw [hn] at h
                  simp only [Bool.false_eq_true, if_false] at h
                  cases h
                  exact malInv_pushM hinv hguard
          | object =>
              rw [ht] at h
              cases hp : d.properties with
              | absent =>
                  rw [hp] at h
                  cases h
                  exact hinv
              | given props =>
                  rw [hp] at h
                  rcases bind_ok h with ⟨parsed, hpv, h'⟩
                  rcases bind_ok h' with ⟨res, hres, h''⟩
                  cases hrs : res.status with
                  | true =>
                      rw [hrs] at h''
                      simp only [if_true] at h''
                      cases h''
                      exact hinv
                  | false =>
                      rw [hrs] at h''
                      simp only [Bool.false_eq_true, if_false] at h''
                      cases h''
                      intro loc' y hy m hm hwh
                      have hmy : st.m loc' = ({ st with
                          exMissing := st.exMissing ++ res.missing,
                          exMalformed := st.exMalformed ++ res.malformed,
                          exUnknown := st.exUnknown ++ res.unknown } : CheckSt).m loc' := by
                        cases loc' <;> rfl
                      rw [← hmy] at hy
                      exact hinv loc' y hy m hm hwh

/-- A successful location pass preserves the guard invariant. -/
theorem processLocF_malInv {rc : List PDef → Req → String → Except Unit CheckResult}
    {strict : Bool} {defs : List PDef} {pre : String} {m0 : List Entry}
    {loc : Loc} {pairs : List (String × JsValue)} {st st' : CheckSt}
    (h : processLocF rc strict defs pre m0 loc pairs st = Except.ok st')
    (hinv : malInv m0 st) : malInv m0 st' := by
  induction pairs generalizing st with
  | nil => cases h; exact hinv
  | cons p rest ih =>
      rcases p with ⟨k, v⟩
      rcases bind_ok h with ⟨s1, h1, h2⟩
      exact ih h2 (processKeyF_malInv h1 hinv)

theorem pushM_preserves (st : CheckSt) (loc : Loc) (x : String) :
    (st.pushM loc x).exMissing = st.exMissing ∧
    (st.pushM loc x).exUnknown = st.exUnknown ∧
    (st.pushM loc x).exMalformed = st.exMalformed := by
  cases loc <;> exact ⟨rfl, rfl, rfl⟩

/-- Without object-typed definitions the per-key pass never merges
recursive entries: the three extra-record lists are untouched. -/
theorem processKeyF_no_merge {rc : List PDef → Req → String → Except Unit CheckResult}
    {strict : Bool} {defs : List PDef} {pre : String} {m0 : List Entry}
    {loc : Loc} {name : String} {value : JsValue} {st st' : CheckSt}
    (hno : ∀ d ∈ defs, d.type ≠ PType.object)
    (h : processKeyF rc strict defs pre m0 loc name value st = Except.ok st') :
    st'.exMissing = st.exMissing ∧ st'.exUnknown = st.exUnknown ∧
    st'.exMalformed = st.exMalformed := by
  cases hfind : (defs.filter (fun d => d.location = loc)).find?
      (fun d => d.name = name) with
  | none =>
      rw [processKeyF_none_eq hfind] at h
      cases strict
      · cases h
        exact ⟨rfl, rfl, rfl⟩
      · cases h
        obtain ⟨_, _, _, h4, h5, h6⟩ := pushU_preserves st loc (pre ++ name)
        exact ⟨h4, h5, h6⟩
  | some d =>
      have hd : d ∈ defs :=
        List.mem_of_mem_filter (List.mem_of_find?_eq_some hfind)
      rw [processKeyF_some_eq hfind] at h
      cases hg : (m0 ++ st.exMissing).any
          (fun m => m.wh = loc && m.params.contains (pre ++ name)) with
      | true =>
          rw [hg] at h
          cases h
          exact ⟨rfl, rfl, rfl⟩
      | false =>
          rw [if_neg (by rw [hg]; simp)] at h
          cases ht : d.type with
          | string =>
              rw [ht] at h
              cases h
              exact ⟨rfl, rfl, rfl⟩
          | number =>
              rw [ht] at h
              cases ha : d.isArray with
              | true =>
                  rw [ha] at h
                  simp only [if_true] at h
                  rcases bind_ok h with ⟨s, hs, h'⟩
                  cases hc : (jsSplit s d.elementsDivider).foldl
                      (fun acc v => acc && (strToNumber v).isSome) true with
                  | true =>
                      rw [hc] at h'
                      simp only [if_true] at h'
                      cases h'
                      exact ⟨rfl, rfl, rfl⟩
                  | false =>
                      rw [hc] at h'
                      simp only [Bool.false_eq_true, if_false] at h'
                      cases h'
                      exact pushM_preserves st loc (pre ++ name)
              | false =>
                  rw [ha] at h
                  simp only [Bool.false_eq_true, if_false] at h
                  cases hn : (jsToNumber value).isSome with
                  | true =>
                      rw [hn] at h
                      simp only [if_true] at h
                      cases h
                      exact ⟨rfl, rfl, rfl⟩
                  | false =>
                      rw [hn] at h
                      simp only [Bool.false_eq_true, if_false] at h
                      cases h
                      exact pushM_preserves st loc (pre ++ name)
          | date =>
              rw [ht] at h
              cases hn : (dateFromValue value).isSome with
              | true =>
                  rw [hn] at h
                  simp only [if_true] at h
                  cases h
                  exact ⟨rfl, rfl, rfl⟩
              | false =>
                  rw [hn] at h
                  simp only [Bool.false_eq_true, if_false] at h
                  cases h
                  exact pushM_preserves st loc (pre ++ name)
          | boolean =>
              rw [ht] at h
              cases hn : isCanonicalBool value with
              | true =>
                  rw [hn] at h
                  simp only [if_true] at h
                  cases h
                  exact ⟨rfl, rfl, rfl⟩
              | false =>
                  rw [hn] at h
                  simp only [Bool.false_eq_true, if_false] at h
                  cases h
                  exact pushM_preserves st loc (pre ++ name)
          | object => exact absurd ht (hno d hd)

/-- Without object-typed definitions the location pass never merges
recursive entries. -/
theorem processLocF_no_merge {rc : List PDef → Req → String → Except Unit CheckResult}
    {strict : Bool} {defs : List PDef} {pre : String} {m0 : List Entry}
    {loc : Loc} {pairs : List (String × JsValue)} {st st' : CheckSt}
    (hno : ∀ d ∈ defs, d.type ≠ PType.object)
    (h : processLocF rc strict defs pre m0 loc pairs st = Except.ok st') :
    st'.exMissing = st.exMissing ∧ st'.exUnknown = st.exUnknown ∧
    st'.exMalformed = st.exMalformed := by
  induction pairs generalizing st with
  | nil => cases h; exact ⟨rfl, rfl, rfl⟩
  | cons p rest ih =>
      rcases p with ⟨k, v⟩
      rcases bind_ok h with ⟨s1, h1, h2⟩
      obtain ⟨a1, a2, a3⟩ := processKeyF_no_merge hno h1
      obtain ⟨b1, b2, b3⟩ := ih h2
      exact ⟨b1.trans a1, b2.trans a2, b3.trans a3⟩

/-- C4 amended: the tie-break holds level-locally, so for schemas with
no object-typed definitions (no recursive merging) no qualified name
recorded in missing for a location is also recorded in malformed for
that location.  (With merging, equal qualified names of different
fields can collide across nesting levels, see the counterexample.) -/
theorem c4_level_disjoint_no_objects {strict : Bool} {defs : List PDef}
    {req : Req} {r : CheckResult}
    (hno : ∀ d ∈ defs, d.type ≠ PType.object)
    (hok : check strict defs req = Except.ok r) :
    ∀ em ∈ r.missing, ∀ el ∈ r.malformed, em.wh = el.wh →
      ∀ x ∈ el.params, x ∉ em.params := by
  have h' : checkAux (sizeL defs + 1) strict defs req "" = Except.ok r := hok
  rw [checkAux] at h'
  rcases bind_ok h' with ⟨st1, h1, h1'⟩
  rcases bind_ok h1' with ⟨st2, h2, h2'⟩
  rcases bind_ok h2' with ⟨st3, h3, h3'⟩
  cases h3'
  have hinv0 : malInv (mkMissing0 defs req "") st0 := by
    intro loc x hx
    cases loc <;> simp [st0, CheckSt.m] at hx
  have hinv3 : malInv (mkMissing0 defs req "") st3 :=
    processLocF_malInv h3 (processLocF_malInv h2 (processLocF_malInv h1 hinv0))
  obtain ⟨e1a, e1b, e1c⟩ := processLocF_no_merge hno h1
  obtain ⟨e2a, e2b, e2c⟩ := processLocF_no_merge hno h2
  obtain ⟨e3a, e3b, e3c⟩ := processLocF_no_merge hno h3
  have hexm : st3.exMissing = [] := by rw [e3a, e2a, e1a]; rfl
  have hexmal : st3.exMalformed = [] := by rw [e3c, e2c, e1c]; rfl
  intro em hem el hel hwh x hx
  rw [mkResult_missing, hexm, List.append_nil] at hem
  rw [mkResult_malformed, hexmal, List.append_nil] at hel
  have hel3 : el = ⟨.query, st3.mq⟩ ∨ el = ⟨.path, st3.mp⟩ ∨
      el = ⟨.body, st3.mb⟩ := by
    simpa using hel
  have hx' : x ∈ st3.m el.wh := by
    rcases hel3 with rfl | rfl | rfl <;> exact hx
  exact hinv3 el.wh x hx' em hem hwh

theorem c4_level_disjoint_no_objects_witness :
    "flag" ∉ (Entry.mk Loc.query ([] : List String)).params :=
  @c4_level_disjoint_no_objects false [d8] ⟨[("flag", .str "maybe")], [], []⟩
    (CheckResult.mk false e3 e3 [⟨.query, ["flag"]⟩, ⟨.path, []⟩, ⟨.body, []⟩])
    (by decide) rfl
    (Entry.mk Loc.query []) (by decide)
    (Entry.mk Loc.query ["flag"]) (by decide)
    rfl ("flag") (by decide)

theorem stLe_u_mem {s t : CheckSt} (h : stLe s t) {loc : Loc} {x : String}
    (hx : x ∈ s.u loc) : x ∈ t.u loc := by
  obtain ⟨⟨x1, e1⟩, ⟨x2, e2⟩, ⟨x3, e3'⟩, _, _, _, _, _, _⟩ := h
  cases loc
  · rw [show t.u .query = t.uq from rfl, e1]
    exact List.mem_append_left _ hx
  · rw [show t.u .path = t.up from rfl, e2]
    exact List.mem_append_left _ hx
  · rw [show t.u .body = t.ub from rfl, e3']
    exact List.mem_append_left _ hx

/-- Under strict mode, an input key with no matching definition gets its
qualified name pushed into the unknown accumulator of its location, and
the push survives the rest of the pass. -/
theorem processLocF_unknown_mem {rc : List PDef → Req → String → Except Unit CheckResult}
    {defs : List PDef} {pr : String} {m0 : List Entry} {loc : Loc}
    {pre_ post_ : List (String × JsValue)} {k : String} {v : JsValue}
    {st st' : CheckSt}
    (hfind : (defs.filter (fun d => d.location = loc)).find?
      (fun d => d.name = k) = Option.none)
    (h : processLocF rc true defs pr m0 loc (pre_ ++ (k, v) :: post_) st =
      Except.ok st') :
    (pr ++ k) ∈ st'.u loc := by
  rw [processLocF_append] at h
  rcases bind_ok h with ⟨stA, hA, hB⟩
  have hB' : (processKeyF rc true defs pr m0 loc k v stA >>=
      fun s => processLocF rc true defs pr m0 loc post_ s) = Except.ok st' := hB
  rcases bind_ok hB' with ⟨stK, hK, hPost⟩
  rw [processKeyF_none_eq hfind] at hK
  simp only [if_true] at hK
  cases hK
  have hmem : (pr ++ k) ∈ (stA.pushU loc (pr ++ k)).u loc := by
    cases loc <;> simp [CheckSt.pushU, CheckSt.u]
  exact stLe_u_mem (processLocF_stLe hPost) hmem

/-- Under non-strict mode, an input key with no matching definition is
skipped outright: the pass behaves as if the key were absent. -/
theorem processLocF_skip_key {rc : List PDef → Req → String → Except Unit CheckResult}
    {defs : List PDef} {pr : String} {m0 : List Entry} {loc : Loc}
    (pre_ post_ : List (String × JsValue)) (k : String) (v : JsValue)
    (hfind : (defs.filter (fun d => d.location = loc)).find?
      (fun d => d.name = k) = Option.none)
    (st : CheckSt) :
    processLocF rc false defs pr m0 loc (pre_ ++ (k, v) :: post_) st =
      processLocF rc false defs pr m0 loc (pre_ ++ post_) st := by
  rw [processLocF_append, processLocF_append]
  apply bind_congr
  intro stA
  show (processKeyF rc false defs pr m0 loc k v stA >>=
      fun s => processLocF rc false defs pr m0 loc post_ s) = _
  rw [processKeyF_none_eq hfind]
  simp only [Bool.false_eq_true, if_false, ok_bind]

theorem contains_middle_ne (l1 l2 : List String) (a b : String) (h : b ≠ a) :
    (l1 ++ a :: l2).contains b = (l1 ++ l2).contains b := by simp [h]

theorem mkMissing0_remove_key {defs : List PDef} {req : Req} {loc : Loc}
    {k : String} {v : JsValue} {pre_ post_ : List (String × JsValue)}
    (hsplit : req.get loc = pre_ ++ (k, v) :: post_)
    (hnodef : ∀ d ∈ defs, ¬(d.location = loc ∧ d.name = k)) (pr : String) :
    mkMissing0 defs (setLoc req loc (pre_ ++ post_)) pr =
      mkMissing0 defs req pr := by
  unfold mkMissing0
  apply List.map_congr_left
  intro loc' _
  by_cases hl : loc' = loc
  · subst hl
    have hkeys : (setLoc req loc' (pre_ ++ post_)).get loc' = pre_ ++ post_ := by
      cases loc' <;> rfl
    rw [hkeys, hsplit]
    dsimp only
    congr 1
    refine congrArg (List.map (fun p => pr ++ p)) ?_
    apply List.filter_congr
    intro r hr
    rcases List.mem_map.mp hr with ⟨d, hd, rfl⟩
    have hd1 : d ∈ defs.filter (fun d => d.location = loc') :=
      List.mem_of_mem_filter hd
    have hdloc : d.location = loc' := by
      simpa using (List.mem_filter.mp hd1).2
    have hddefs : d ∈ defs := List.mem_of_mem_filter hd1
    have hne : d.name ≠ k := fun hk => hnodef d hddefs ⟨hdloc, hk⟩
    refine congrArg (fun b : Bool => !b) ?_
    rw [List.map_append, List.map_append, List.map_cons]
    exact (contains_middle_ne (pre_.map Prod.fst) (post_.map Prod.fst)
      ((k, v).fst) d.name hne).symm
  · have hkeys : (setLoc req loc (pre_ ++ post_)).get loc' = req.get loc' := by
      cases loc <;> cases loc' <;> first | rfl | exact absurd rfl hl
    rw [hkeys]

/-- C5: an input key of a location with no definition matching both its
name and the location is, under strict mode, reported in unknown for
that location; under non-strict mode the key is silently ignored: the
whole result equals the result for the request with the key removed, so
the key reaches no classification list and cannot affect the status. -/
theorem c5_unknown_key {strict : Bool} {defs : List PDef} {req : Req}
    {loc : Loc} {k : String} {v : JsValue}
    {pre_ post_ : List (String × JsValue)}
    (hsplit : req.get loc = pre_ ++ (k, v) :: post_)
    (hnodef : ∀ d ∈ defs, ¬(d.location = loc ∧ d.name = k)) :
    (strict = true → ∀ r, check strict defs req = Except.ok r →
      ∃ e ∈ r.unknown, e.wh = loc ∧ k ∈ e.params) ∧
    (strict = false → check strict defs req =
      check strict defs (setLoc req loc (pre_ ++ post_))) := by
  have hfind : (defs.filter (fun d => d.location = loc)).find?
      (fun d => d.name = k) = Option.none := by
    apply List.find?_eq_none.mpr
    intro d hd
    have hdloc : d.location = loc := by
      simpa using (List.mem_filter.mp hd).2
    have hddefs : d ∈ defs := List.mem_of_mem_filter hd
    simpa using fun hk => hnodef d hddefs ⟨hdloc, hk⟩
  constructor
  · rintro rfl r hok
    have h' : checkAux (sizeL defs + 1) true defs req "" = Except.ok r := hok
    rw [checkAux] at h'
    rcases bind_ok h' with ⟨st1, h1, h1'⟩
    rcases bind_ok h1' with ⟨st2, h2, h2'⟩
    rcases bind_ok h2' with ⟨st3, h3, h3'⟩
    cases h3'
    have hmem : ("" ++ k) ∈ st3.u loc := by
      cases loc with
      | query =>
          rw [show req.get .query = req.query from rfl] at hsplit
          rw [hsplit] at h1
          exact stLe_u_mem (processLocF_stLe h3)
            (stLe_u_mem (processLocF_stLe h2) (processLocF_unknown_mem hfind h1))
      | path =>
          rw [show req.get .path = req.path from rfl] at hsplit
          rw [hsplit] at h2
          exact stLe_u_mem (processLocF_stLe h3) (processLocF_unknown_mem hfind h2)
      | body =>
          rw [show req.get .body = req.body from rfl] at hsplit
          rw [hsplit] at h3
          exact processLocF_unknown_mem hfind h3
    rw [str_empty_append] at hmem
    refine ⟨⟨loc, st3.u loc⟩, ?_, rfl, hmem⟩
    rw [mkResult_unknown]
    apply List.mem_append_left
    cases loc <;> simp [CheckSt.u]
  · rintro rfl
    show checkAux (sizeL defs + 1) false defs req "" =
      checkAux (sizeL defs + 1) false defs (setLoc req loc (pre_ ++ post_)) ""
    rw [checkAux, checkAux]
    rw [mkMissing0_remove_key hsplit hnodef]
    cases loc with
    | query =>
        rw [show (setLoc req .query (pre_ ++ post_)).query = pre_ ++ post_ from rfl,
          show (setLoc req .query (pre_ ++ post_)).path = req.path from rfl,
          show (setLoc req .query (pre_ ++ post_)).body = req.body from rfl]
        rw [show req.get .query = req.query from rfl] at hsplit
        rw [hsplit, processLocF_skip_key pre_ post_ k v hfind st0]
    | path =>
        rw [show (setLoc req .path (pre_ ++ post_)).query = req.query from rfl,
          show (setLoc req .path (pre_ ++ post_)).path = pre_ ++ post_ from rfl,
          show (setLoc req .path (pre_ ++ post_)).body = req.body from rfl]
        rw [show req.get .path = req.path from rfl] at hsplit
        rw [hsplit]
        apply bind_congr
        intro st1
        rw [processLocF_skip_key pre_ post_ k v hfind st1]
    | body =>
        rw [show (setLoc req .body (pre_ ++ post_)).query = req.query from rfl,
          show (setLoc req .body (pre_ ++ post_)).path = req.path from rfl,
          show (setLoc req .body (pre_ ++ post_)).body = pre_ ++ post_ from rfl]
        rw [show req.get .body = req.body from rfl] at hsplit
        rw [hsplit]
        apply bind_congr
        intro st1
        apply bind_congr
        intro st2
        rw [processLocF_skip_key pre_ post_ k v hfind st2]

theorem c5_unknown_key_witness :
    ∃ e ∈ (CheckResult.mk false
      [⟨.query, ["p3"]⟩, ⟨.path, []⟩, ⟨.body, []⟩] e3 e3).unknown,
      e.wh = Loc.query ∧ "p3" ∈ e.params :=
  (@c5_unknown_key true c5defs
    ⟨[("p1", .str "x"), ("p3", .str "y")], [], []⟩
    .query ("p3") (.str "y") [("p1", .str "x")] []
    rfl (by decide)).1 rfl _ rfl

theorem find_listSet_ne (l : List (String × JsValue)) (k : String)
    (w : JsValue) (n : String) (h : ¬(n = k)) :
    (listSet l k w).find? (fun p => p.1 = n) = l.find? (fun p => p.1 = n) := by
  have hkn : (decide (k = n)) = false := decide_eq_false fun e => h e.symm
  induction l with
  | nil => simp [listSet, List.find?, hkn]
  | cons p rest ih =>
      rcases p with ⟨a, b⟩
      by_cases hak : a = k
      · subst hak
        simp [listSet, List.find?, hkn]
      · simp only [listSet, if_neg hak, List.find?]
        by_cases han : a = n
        · simp [han]
        · have h2 : (decide (a = n)) = false := decide_eq_false han
          simp [h2, ih]

theorem find_listSet_self (l : List (String × JsValue)) (k : String)
    (w : JsValue) :
    (listSet l k w).find? (fun p => p.1 = k) = Option.some (k, w) := by
  induction l with
  | nil => simp [listSet, List.find?]
  | cons p rest ih =>
      rcases p with ⟨a, b⟩
      by_cases hak : a = k
      · subst hak
        simp [listSet, List.find?]
      · simp only [listSet, if_neg hak, List.find?]
        have h2 : (decide (a = k)) = false := decide_eq_false hak
        rw [h2]
        exact ih

theorem getRaw_setReqSlot_ne (req : Req) (loc' : Loc) (n' : String)
    (w : JsValue) (loc : Loc) (n : String)
    (h : ¬(loc = loc' ∧ n = n')) :
    getRaw (setReqSlot req loc' n' w) loc n = getRaw req loc n := by
  by_cases hl : loc = loc'
  · subst hl
    have hn : ¬(n = n') := fun hn => h ⟨rfl, hn⟩
    unfold getRaw
    have hget : (setReqSlot req loc n' w).get loc = listSet (req.get loc) n' w := by
      cases loc <;> rfl
    rw [hget, find_listSet_ne _ _ _ _ hn]
  · unfold getRaw
    have hget : (setReqSlot req loc' n' w).get loc = req.get loc := by
      cases loc <;> cases loc' <;> first | rfl | exact absurd rfl hl
    rw [hget]

theorem lookupVR_setVR_ne (vr : ValueResult) (loc' : Loc) (n' : String)
    (w : JsValue) (loc : Loc) (n : String)
    (h : ¬(loc = loc' ∧ n = n')) :
    lookupVR (setVR vr loc' n' w) loc n = lookupVR vr loc n := by
  by_cases hl : loc = loc'
  · subst hl
    have hn : ¬(n = n') := fun hn => h ⟨rfl, hn⟩
    unfold lookupVR
    have hget : (setVR vr loc n' w).get loc = listSet (vr.get loc) n' w := by
      cases loc <;> rfl
    rw [hget, find_listSet_ne _ _ _ _ hn]
  · unfold lookupVR
    have hget : (setVR vr loc' n' w).get loc = vr.get loc := by
      cases loc <;> cases loc' <;> first | rfl | exact absurd rfl hl
    rw [hget]

theorem lookupVR_setVR_self (vr : ValueResult) (loc : Loc) (n : String)
    (w : JsValue) : lookupVR (setVR vr loc n w) loc n = Option.some w := by
  unfold lookupVR
  have hget : (setVR vr loc n w).get loc = listSet (vr.get loc) n w := by
    cases loc <;> rfl
  rw [hget, find_listSet_self]
  rfl

/-- One values step for a definition of a different (location, name)
slot observes and changes neither the request slot nor the output slot
of the given pair. -/
theorem valStep_slot_ne {pv : JsValue → PDef → Except Unit JsValue}
    {acc acc' : ValueResult × Req} {d' : PDef} {loc : Loc} {n : String}
    (hne : ¬(loc = d'.location ∧ n = d'.name))
    (h : valStep pv acc d' = Except.ok acc') :
    getRaw acc'.2 loc n = getRaw acc.2 loc n ∧
    lookupVR acc'.1 loc n = lookupVR acc.1 loc n := by
  unfold valStep at h
  dsimp only at h
  rcases bind_ok h with ⟨w, hw, h'⟩
  cases h'
  constructor
  · dsimp only
    split
    · exact getRaw_setReqSlot_ne _ _ _ _ _ _ hne
    · rfl
  · dsimp only
    split
    · rfl
    · exact lookupVR_setVR_ne _ _ _ _ _ _ hne

/-- A fold of values steps over definitions that all target other slots
preserves the request slot and the output slot of the given pair. -/
theorem valuesFold_slot_ne {pv : JsValue → PDef → Except Unit JsValue}
    {ds : List PDef} {acc out : ValueResult × Req} {loc : Loc} {n : String}
    (hne : ∀ d' ∈ ds, ¬(loc = d'.location ∧ n = d'.name))
    (h : List.foldlM (valStep pv) acc ds = Except.ok out) :
    getRaw out.2 loc n = getRaw acc.2 loc n ∧
    lookupVR out.1 loc n = lookupVR acc.1 loc n := by
  induction ds generalizing acc with
  | nil => cases h; exact ⟨rfl, rfl⟩
  | cons d' rest ih =>
      rw [foldlM_cons_except] at h
      rcases bind_ok h with ⟨acc1, h1, h2⟩
      obtain ⟨a1, a2⟩ := valStep_slot_ne (hne d' (List.mem_cons_self _ _)) h1
      obtain ⟨b1, b2⟩ := ih (fun d' hd => hne d' (List.mem_cons_of_mem _ hd)) h2
      exact ⟨b1.trans a1, b2.trans a2⟩

theorem lookupVR_empty (loc : Loc) (n : String) :
    lookupVR ⟨[], [], []⟩ loc n = Option.none := by
  cases loc <;> rfl

/-- C7: for a top-level definition whose raw value is null or undefined
(under per-location name uniqueness), values resolves the field to the
definition's default verbatim, and the field appears in the output
mapping exactly when that default is not null/undefined. -/
theorem c7_default_verbatim {defs : List PDef} {req : Req} {vr : ValueResult} {d : PDef}
    (hnd : (defs.map (fun x => (x.location, x.name))).Nodup)
    (hd : d ∈ defs)
    (hraw : isNullish (getRaw req d.location d.name) = true)
    (hok : values defs req = Except.ok vr) :
    lookupVR vr d.location d.name =
      (if isNullish d.dflt then Option.none else Option.some d.dflt) := by
  obtain ⟨pre_, post_, rfl⟩ := List.append_of_mem hd
  have hok' : (valuesEff (pre_ ++ d :: post_) req).map (fun p => p.1) =
      Except.ok vr := hok
  cases hve : valuesEff (pre_ ++ d :: post_) req with
  | error e =>
      rw [hve] at hok'
      cases hok'
  | ok out =>
      rw [hve] at hok'
      have hvr : vr = out.1 := by
        cases hok'
        rfl
      have hfold : List.foldlM (valStep
          (fun v d' => parseValueAux (sizeL (pre_ ++ d :: post_) + 1) v d'))
          ((⟨[], [], []⟩ : ValueResult), req) (pre_ ++ d :: post_) =
          Except.ok out := hve
      rw [List.foldlM_append] at hfold
      rcases bind_ok hfold with ⟨accP, hP, hrest⟩
      rw [foldlM_cons_except] at hrest
      rcases bind_ok hrest with ⟨accD, hD, hPost⟩
      have hmapnd : ((pre_.map (fun x => (x.location, x.name))) ++
          (d.location, d.name) :: (post_.map (fun x => (x.location, x.name)))).Nodup := by
        simpa using hnd
      have hnotpre : (d.location, d.name) ∉ pre_.map (fun x => (x.location, x.name)) := by
        intro hmem
        exact (List.disjoint_of_nodup_append hmapnd) hmem (List.mem_cons_self _ _)
      have hnotpost : (d.location, d.name) ∉ post_.map (fun x => (x.location, x.name)) := by
        have h2 := (List.nodup_append.mp hmapnd).2.1
        exact (List.nodup_cons.mp h2).1
      have hprene : ∀ d' ∈ pre_, ¬(d.location = d'.location ∧ d.name = d'.name) := by
        intro d' hd' ⟨ha, hb⟩
        exact hnotpre (List.mem_map.mpr ⟨d', hd', by rw [ha, hb]⟩)
      have hpostne : ∀ d' ∈ post_, ¬(d.location = d'.location ∧ d.name = d'.name) := by
        intro d' hd' ⟨ha, hb⟩
        exact hnotpost (List.mem_map.mpr ⟨d', hd', by rw [ha, hb]⟩)
      obtain ⟨hreqP, hvrP⟩ := valuesFold_slot_ne hprene hP
      have hrawD : getRaw accP.2 d.location d.name =
          getRaw req d.location d.name := hreqP
      unfold valStep at hD
      dsimp only at hD
      have hpv : parseValueAux (sizeL (pre_ ++ d :: post_) + 1)
          (getRaw accP.2 d.location d.name) d = Except.ok d.dflt := by
        rw [parseValueAux_succ_eq, hrawD, hraw]
        simp
      rw [hpv, ok_bind] at hD
      cases hD
      subst hvr
      obtain ⟨_, hvrPost⟩ := valuesFold_slot_ne hpostne hPost
      rw [hvrPost]
      dsimp only
      cases hdf : isNullish d.dflt with
      | true =>
          simp only [hdf, if_true]
          rw [hvrP]
          exact lookupVR_empty _ _
      | false =>
          simp only [hdf, Bool.false_eq_true, if_false]
          exact lookupVR_setVR_self _ _ _ _


theorem c7_default_verbatim_witness :
    lookupVR ⟨[("flag", .bool false)], [], []⟩ Loc.query ("flag") =
      (if isNullish d7.dflt then Option.none else Option.some d7.dflt) :=
  @c7_default_verbatim [d7] ⟨[], [], []⟩
    ⟨[("flag", .bool false)], [], []⟩ d7
    (by decide) (List.mem_singleton.mpr rfl) rfl rfl

/-- C1 amended: qualified names carry only the immediate enclosing
object key as prefix.  For the three-level schema gp/p/c, whatever the
payload strings are, the innermost missing required field is reported
as p.c (one-level prefix), not under its full root path gp.p.c. -/
theorem c1_amended_single_level (strict : Bool) (s1 s2 : String)
    (hp1 : jsonParse s1 = Except.ok (.obj (.cons ("p") (.str s2) .nil)))
    (hp2 : jsonParse s2 = Except.ok (.obj .nil)) :
    check strict c1defs ⟨[("gp", .str s1)], [], []⟩ = Except.ok c1result ∧
    collectNames c1result = ["p.c"] := by
  refine ⟨?_, rfl⟩
  have hrec3 : checkAux 5 strict [c1c] (singleReq .query []) ("p" ++ ".") =
      Except.ok c1res3 := rfl
  have hkey2 : processKeyF (fun ds rq pr => checkAux 5 strict ds rq pr) strict
      [c1p] ("gp" ++ ".") e3 .query ("p") (.str s2) st0 =
      (jsonParseValue (.str s2) >>= fun parsed =>
        (checkAux 5 strict [c1c] (singleReq .query (toMapping parsed))
          ("p" ++ ".")) >>= fun res =>
          if res.status then Except.ok st0
          else Except.ok { st0 with
            exMissing := st0.exMissing ++ res.missing,
            exMalformed := st0.exMalformed ++ res.malformed,
            exUnknown := st0.exUnknown ++ res.unknown }) := rfl
  rw [show jsonParseValue (.str s2) = jsonParse s2 from rfl, hp2, ok_bind] at hkey2
  rw [show toMapping (JsValue.obj .nil) = [] from rfl, hrec3, ok_bind] at hkey2
  rw [show c1res3.status = false from rfl] at hkey2
  simp only [Bool.false_eq_true, if_false] at hkey2
  have hkey2' : processKeyF (fun ds rq pr => checkAux 5 strict ds rq pr) strict
      [c1p] ("gp" ++ ".") e3 .query ("p") (.str s2) st0 = Except.ok c1st2 := hkey2
  have hrec2 : checkAux 6 strict [c1p] (singleReq .query [("p", .str s2)])
      ("gp" ++ ".") = Except.ok c1res2 := by
    rw [show (6 : Nat) = 5 + 1 from rfl, checkAux]
    rw [show mkMissing0 [c1p] (singleReq .query [("p", .str s2)]) ("gp" ++ ".") =
      e3 from rfl]
    rw [show (singleReq .query [("p", .str s2)]).query = [("p", .str s2)] from rfl,
      show (singleReq .query [("p", .str s2)]).path = [] from rfl,
      show (singleReq .query [("p", .str s2)]).body = [] from rfl]
    rw [show processLocF (fun ds rq pr => checkAux 5 strict ds rq pr) strict
        [c1p] ("gp" ++ ".") e3 .query [("p", .str s2)] st0 =
      (processKeyF (fun ds rq pr => checkAux 5 strict ds rq pr) strict
        [c1p] ("gp" ++ ".") e3 .query ("p") (.str s2) st0 >>= fun s =>
          processLocF (fun ds rq pr => checkAux 5 strict ds rq pr) strict
            [c1p] ("gp" ++ ".") e3 .query [] s) from rfl]
    rw [hkey2', ok_bind]
    rfl
  have hkey1 : processKeyF (fun ds rq pr => checkAux 6 strict ds rq pr) strict
      c1defs ("") e3 .query ("gp") (.str s1) st0 =
      (jsonParseValue (.str s1) >>= fun parsed =>
        (checkAux 6 strict [c1p] (singleReq .query (toMapping parsed))
          ("gp" ++ ".")) >>= fun res =>
          if res.status then Except.ok st0
          else Except.ok { st0 with
            exMissing := st0.exMissing ++ res.missing,
            exMalformed := st0.exMalformed ++ res.malformed,
            exUnknown := st0.exUnknown ++ res.unknown }) := rfl
  rw [show jsonParseValue (.str s1) = jsonParse s1 from rfl, hp1, ok_bind] at hkey1
  rw [show toMapping (JsValue.obj (.cons ("p") (.str s2) .nil)) =
    [("p", .str s2)] from rfl, hrec2, ok_bind] at hkey1
  rw [show c1res2.status = false from rfl] at hkey1
  simp only [Bool.false_eq_true, if_false] at hkey1
  have hkey1' : processKeyF (fun ds rq pr => checkAux 6 strict ds rq pr) strict
      c1defs ("") e3 .query ("gp") (.str s1) st0 = Except.ok c1st1 := hkey1
  show checkAux (sizeL c1defs + 1) strict c1defs ⟨[("gp", .str s1)], [], []⟩ "" = _
  rw [show sizeL c1defs + 1 = 6 + 1 from rfl, checkAux]
  rw [show mkMissing0 c1defs ⟨[("gp", .str s1)], [], []⟩ "" = e3 from rfl]
  rw [show ({ query := [("gp", .str s1)], path := [], body := [] } : Req).query =
      [("gp", .str s1)] from rfl,
    show ({ query := [("gp", .str s1)], path := [], body := [] } : Req).path =
      [] from rfl,
    show ({ query := [("gp", .str s1)], path := [], body := [] } : Req).body =
      [] from rfl]
  rw [show processLocF (fun ds rq pr => checkAux 6 strict ds rq pr) strict
      c1defs ("") e3 .query [("gp", .str s1)] st0 =
    (processKeyF (fun ds rq pr => checkAux 6 strict ds rq pr) strict
      c1defs ("") e3 .query ("gp") (.str s1) st0 >>= fun s =>
        processLocF (fun ds rq pr => checkAux 6 strict ds rq pr) strict
          c1defs ("") e3 .query [] s) from rfl]
  rw [hkey1', ok_bind]
  rfl


theorem c1_amended_single_level_witness :
    check false c1defs ⟨[("gp", .str ("\x7b\"p\": \"\x7b\x7d\"\x7d"))], [], []⟩ =
      Except.ok c1result ∧ collectNames c1result = ["p.c"] :=
  c1_amended_single_level false ("\x7b\"p\": \"\x7b\x7d\"\x7d") ("\x7b\x7d")
    rfl rfl
